import Mathlib

/-!
Verification development for the `bucket-search` repository: a bucketed 3D
spatial index (`PointBin3D` in `src/pointbin.rs`, with column reductions in
`src/utils.rs`).  The Rust code is shallowly embedded over exact rationals:
`f64` coordinates become `ℚ`, `ndarray` buffers become lists, the intrusive
per-bin linked lists (`first_member` / `next_member`) become integer lists
mutated functionally, and the `while` chain traversal of `radius_search`
becomes a fuel-indexed recursion (fuel `n`, the number of points; exhausting
fuel or an out-of-range index access is modelled as `none`, mirroring a
panic / nonterminating execution, and is proved unreachable from valid
states).  The `assert_eq!` dimension checks of the source are modelled as
`Except` errors so that the error taxonomy is observable.
-/

namespace BucketSearch

/-- The failure conditions observable at the call boundary: the explicit
`InvalidDimension` asserts of the source, and any index-out-of-bounds panic
(such as `min_along_axis0` reading row 0 of an empty matrix). -/
inductive PanicKind where
  | invalidDimension
  | indexOutOfBounds
deriving DecidableEq

/-- A real matrix, row major, as in `ndarray::Array2<f64>`. -/
abbrev Mat := List (List ℚ)

/-- `utils.rs::min_along_axis0`: column-wise minimum.  The source starts from
`arr.row(0)` unconditionally, so an empty matrix is an out-of-bounds panic,
modelled as `none`; then it folds the element-wise minimum over all rows. -/
def min_along_axis0 (arr : Mat) : Option (List ℚ) :=
  match arr with
  | [] => none
  | r0 :: _ => some (arr.foldl (fun out row => List.zipWith min out row) r0)

/-- `utils.rs::max_along_axis0_i64`: column-wise maximum of an integer
matrix, same access pattern as `min_along_axis0`. -/
def max_along_axis0_i64 (arr : List (List ℤ)) : Option (List ℤ) :=
  match arr with
  | [] => none
  | r0 :: _ => some (arr.foldl (fun out row => List.zipWith max out row) r0)

/-- One integer bin coordinate: `((c - origin) / width).floor()`. -/
def binCoord (c o w : ℚ) : ℤ := Int.floor ((c - o) / w)

/-- The three bin coordinates of one point row (`bin_indices[[i, j]]`). -/
def binRow (row origin ws : List ℚ) : List ℤ :=
  (List.range 3).map (fun j => binCoord (row.getD j 0) (origin.getD j 0) (ws.getD j 0))

/-- The flattened row-major sort key
`bin[0] * shape[1] * shape[2] + bin[1] * shape[2] + bin[2]`. -/
def flatKey (bi : List ℤ) (shape : List ℤ) : ℤ :=
  bi.getD 0 0 * shape.getD 1 0 * shape.getD 2 0 + bi.getD 1 0 * shape.getD 2 0 + bi.getD 2 0

/-- A 3D bin coordinate. -/
abbrev Bin := ℤ × ℤ × ℤ

/-- The first three entries of a bin-index row as a bin coordinate. -/
def binTriple (bi : List ℤ) : Bin := (bi.getD 0 0, bi.getD 1 0, bi.getD 2 0)

/-- The `first_member` 3D array (`ndarray::Array3<i64>`), as nested lists. -/
abbrev FM := List (List (List ℤ))

/-- Read `first_member[[x, y, z]]` (indices cast with `as usize`). -/
def fmGet (fm : FM) (b : Bin) : ℤ :=
  ((fm.getD b.1.toNat []).getD b.2.1.toNat []).getD b.2.2.toNat (-1)

/-- Write `first_member[[x, y, z]] = v`. -/
def fmSet (fm : FM) (b : Bin) (v : ℤ) : FM :=
  fm.set b.1.toNat
    ((fm.getD b.1.toNat []).set b.2.1.toNat
      (((fm.getD b.1.toNat []).getD b.2.1.toNat []).set b.2.2.toNat v))

/-- The `PointBin3D` struct of `src/pointbin.rs`, field for field. -/
structure PointBin3D where
  original_points : Mat
  points : Mat
  bin_widths : List ℚ
  origin : List ℚ
  original_indices : List ℤ
  bin_shape : List ℤ
  first_member : FM
  next_member : List ℤ
  original_first_member : FM
  original_next_member : List ℤ
  found_indices_buffer : List ℤ
  found_count : ℕ
deriving DecidableEq

/-- The comparison used by `keys.sort_by_key(|&(k, _)| k)`: compare the key
component only. -/
def keyLE (a b : ℤ × ℕ) : Prop := a.1 ≤ b.1

instance : DecidableRel keyLE := fun a b => inferInstanceAs (Decidable (a.1 ≤ b.1))

/-- The linked-list construction loop of `PointBin3D::new`: for each sorted
index `i` in increasing order, prepend it to its bin's chain
(`next_member[i] = first_member[bin]; first_member[bin] = i`). -/
def buildLL : List Bin → ℕ → FM → List ℤ → FM × List ℤ
  | [], _, fm, next => (fm, next)
  | b :: bs, i, fm, next => buildLL bs (i + 1) (fmSet fm b (i : ℤ)) (next.set i (fmGet fm b))

/-- The sorted index order: original indices sorted stably by flattened bin
key.  The stable `keys.sort_by_key` of the source is modelled by
`List.insertionSort` on `(key, index)` pairs compared by key only, which is
stable. -/
def sortOrder (original_points : Mat) (bin_widths origin : List ℚ) (maxbin : List ℤ) :
    List ℕ :=
  let n := original_points.length
  let bin_indices := original_points.map (fun row => binRow row origin bin_widths)
  let bin_shape := maxbin.map (· + 1)
  let keys : List (ℤ × ℕ) :=
    (List.range n).map (fun i => (flatKey (bin_indices.getD i []) bin_shape, i))
  (keys.insertionSort keyLE).map (·.2)

/-- The record built by the successful branch of `PointBin3D::new`, given
the two reduction results. -/
def buildPB (original_points : Mat) (bin_widths origin : List ℚ) (maxbin : List ℤ) :
    PointBin3D :=
  let n := original_points.length
  let bin_indices := original_points.map (fun row => binRow row origin bin_widths)
  let bin_shape := maxbin.map (· + 1)
  let sort_order := sortOrder original_points bin_widths origin maxbin
  let points := sort_order.map (fun oi => original_points.getD oi [])
  let sortedBins := sort_order.map (fun oi => binTriple (bin_indices.getD oi []))
  let fm0 : FM :=
    List.replicate (bin_shape.getD 0 0).toNat
      (List.replicate (bin_shape.getD 1 0).toNat
        (List.replicate (bin_shape.getD 2 0).toNat (-1)))
  let built := buildLL sortedBins 0 fm0 (List.replicate n (-1))
  { original_points := original_points
    points := points
    bin_widths := bin_widths
    origin := origin
    original_indices := sort_order.map (fun oi : ℕ => (oi : ℤ))
    bin_shape := bin_shape
    first_member := built.1
    next_member := built.2
    original_first_member := built.1
    original_next_member := built.2
    found_indices_buffer := List.replicate n (-1)
    found_count := 0 }

/-- `PointBin3D::new`.  `ncols` is the column count of the `Array2` argument
(an `n × 3` matrix has `ncols = 3` even when `n = 0`).  The two
`assert_eq!` dimension checks come first; `min_along_axis0` then reads row 0,
so an empty point set is an out-of-bounds failure, not `InvalidDimension`. -/
def PointBin3D.new (ncols : ℕ) (original_points : Mat) (bin_widths : List ℚ) :
    Except PanicKind PointBin3D :=
  if ncols ≠ 3 then .error .invalidDimension
  else if bin_widths.length ≠ 3 then .error .invalidDimension
  else match min_along_axis0 original_points with
  | none => .error .indexOutOfBounds
  | some origin =>
    match max_along_axis0_i64 (original_points.map (fun row => binRow row origin bin_widths)) with
    | none => .error .indexOutOfBounds
    | some maxbin => .ok (buildPB original_points bin_widths origin maxbin)

/-- Squared Euclidean distance over the three coordinates
(`dist_sq += diff * diff` for `j in 0..3`). -/
def distSq (p q : List ℚ) : ℚ :=
  (List.range 3).foldl
    (fun acc j => acc + (p.getD j 0 - q.getD j 0) * (p.getD j 0 - q.getD j 0)) 0

/-- The Euclidean distance the specification speaks about. -/
noncomputable def euclidDist (p q : List ℚ) : ℝ := Real.sqrt ((distSq p q : ℚ) : ℝ)

/-- The `while i != -1` chain traversal of `radius_search`, for one bin `b`:
walk the chain, test the inclusive squared-distance condition, unlink and
tombstone (`-2`) matches, record them in the result buffer.  `fuel` bounds
the number of iterations (the caller passes `n`); running out of fuel or
reading an invalid index yields `none`. -/
def chainWalk (q : List ℚ) (radius_sq : ℚ) (b : Bin) :
    ℕ → ℤ → ℤ → PointBin3D → Option PointBin3D
  | 0, _, i, pb => if i = -1 then some pb else none
  | fuel + 1, prev, i, pb =>
    if i = -1 then some pb
    else
      if 0 ≤ i ∧ i.toNat < pb.next_member.length then
        let next_i := pb.next_member.getD i.toNat 0
        let dist_sq := distSq (pb.points.getD i.toNat []) q
        if dist_sq ≤ radius_sq then
          let pb1 :=
            if prev = -1 then
              { pb with first_member := fmSet pb.first_member b next_i }
            else
              { pb with next_member := pb.next_member.set prev.toNat next_i }
          let pb2 := { pb1 with next_member := pb1.next_member.set i.toNat (-2) }
          if pb2.found_count < pb2.found_indices_buffer.length then
            chainWalk q radius_sq b fuel prev next_i
              { pb2 with
                found_indices_buffer := pb2.found_indices_buffer.set pb2.found_count i
                found_count := pb2.found_count + 1 }
          else none
        else chainWalk q radius_sq b fuel i next_i pb
      else none

/-- The triple loop over the clamped bin box, flattened into one list of bins
visited in exactly the source's order (axis 0 outermost, then 1, then 2). -/
def searchBins (q : List ℚ) (radius_sq : ℚ) : List Bin → PointBin3D → Option PointBin3D
  | [], pb => some pb
  | b :: bs, pb =>
    match chainWalk q radius_sq b pb.next_member.length (-1) (fmGet pb.first_member b) pb with
    | none => none
    | some pb' => searchBins q radius_sq bs pb'

/-- The inclusive integer range `lo..=hi` (empty when `lo > hi`). -/
def intRange (lo hi : ℤ) : List ℤ :=
  (List.range (hi + 1 - lo).toNat).map (fun k : ℕ => lo + (k : ℤ))

/-- `min_bin[j]`: bin coordinate of the lower box corner `query - radius`,
clamped below by 0. -/
def loBin (pb : PointBin3D) (query : List ℚ) (radius : ℚ) (j : ℕ) : ℤ :=
  max (binCoord (query.getD j 0 - radius) (pb.origin.getD j 0) (pb.bin_widths.getD j 0)) 0

/-- `max_bin[j]`: bin coordinate of the upper box corner `query + radius`,
clamped above by `bin_shape[j] - 1`. -/
def hiBin (pb : PointBin3D) (query : List ℚ) (radius : ℚ) (j : ℕ) : ℤ :=
  min (binCoord (query.getD j 0 + radius) (pb.origin.getD j 0) (pb.bin_widths.getD j 0))
    (pb.bin_shape.getD j 0 - 1)

/-- The bins visited by `radius_search`: the clamped box, iterated in
row-major order (axis 0 outermost, each axis ascending). -/
def visitBins (pb : PointBin3D) (query : List ℚ) (radius : ℚ) : List Bin :=
  (intRange (loBin pb query radius 0) (hiBin pb query radius 0)).flatMap (fun ix =>
    (intRange (loBin pb query radius 1) (hiBin pb query radius 1)).flatMap (fun iy =>
      (intRange (loBin pb query radius 2) (hiBin pb query radius 2)).map (fun iz =>
        (ix, iy, iz))))

/-- `PointBin3D::radius_search`.  The dimension assert comes before anything
else; then the clamped bin box is traversed bin by bin.  A state is only
produced on success, mirroring that the source mutates nothing before the
check and aborts on a panic. -/
def PointBin3D.radius_search (pb : PointBin3D) (query_point : List ℚ) (radius : ℚ) :
    Except PanicKind PointBin3D :=
  if query_point.length ≠ 3 then .error .invalidDimension
  else
    match searchBins query_point (radius * radius) (visitBins pb query_point radius) pb with
    | some pb' => .ok pb'
    | none => .error .indexOutOfBounds

/-- `PointBin3D::found_indices`: the first `found_count` entries of the
result buffer, mapped through `original_indices`. -/
def PointBin3D.found_indices (pb : PointBin3D) : List ℤ :=
  (List.range pb.found_count).map
    (fun i => pb.original_indices.getD (pb.found_indices_buffer.getD i 0).toNat 0)

/-- `PointBin3D::reset`: restore `first_member` and `next_member` from the
construction-time snapshot and zero the count. -/
def PointBin3D.reset (pb : PointBin3D) : PointBin3D :=
  { pb with
    first_member := pb.original_first_member
    next_member := pb.original_next_member
    found_count := 0 }

/-- Run a session: a sequence of `radius_search` calls. -/
def runSearches : PointBin3D → List (List ℚ × ℚ) → Except PanicKind PointBin3D
  | pb, [] => .ok pb
  | pb, (q, r) :: rest =>
    match pb.radius_search q r with
    | .ok pb' => runSearches pb' rest
    | .error e => .error e

/-- The states reachable from a constructed instance by any sequence of
successful `radius_search` calls and `reset` calls. -/
inductive Reach (pb0 : PointBin3D) : PointBin3D → Prop where
  | refl : Reach pb0 pb0
  | search {pb pb' : PointBin3D} {q : List ℚ} {r : ℚ} :
      Reach pb0 pb → pb.radius_search q r = .ok pb' → Reach pb0 pb'
  | reset {pb : PointBin3D} : Reach pb0 pb → Reach pb0 pb.reset

/-! ### Abstractions used by the invariant -/

/-- The fields fixed at construction: searching and resetting never change
them.  (`first_member`, `next_member`, the result buffer and the count are
the mutable state.) -/
structure SameFrame (pb pb' : PointBin3D) : Prop where
  hop : pb'.original_points = pb.original_points
  hp : pb'.points = pb.points
  hw : pb'.bin_widths = pb.bin_widths
  ho : pb'.origin = pb.origin
  hoi : pb'.original_indices = pb.original_indices
  hsh : pb'.bin_shape = pb.bin_shape
  hofm : pb'.original_first_member = pb.original_first_member
  honm : pb'.original_next_member = pb.original_next_member

/-- Head of a chain given as a list of sorted indices (`-1` when empty). -/
def headIdx : List ℕ → ℤ
  | [] => -1
  | a :: _ => (a : ℤ)

/-- Last element of a chain (`-1` when empty): the value of the `prev`
cursor after the whole list has been kept. -/
def lastIdx (K : List ℕ) : ℤ :=
  match K.getLast? with
  | none => -1
  | some a => (a : ℤ)

/-- `Links next h L t`: starting from value `h` and following `next`, one
visits exactly the indices of `L` in order and then reads `t`. -/
def Links (next : List ℤ) : ℤ → List ℕ → ℤ → Prop
  | h, [], t => h = t
  | h, a :: L, t => h = (a : ℤ) ∧ a < next.length ∧ Links next (next.getD a 0) L t

/-- The sorted indices recorded so far in the result buffer. -/
def foundL (pb : PointBin3D) : List ℕ :=
  (pb.found_indices_buffer.take pb.found_count).map Int.toNat

/-- The bin coordinate of sorted point `i`, recomputed from the sorted
buffer (the quantity the chains are organised by). -/
def binOfS (pb : PointBin3D) (i : ℕ) : Bin :=
  binTriple (binRow (pb.points.getD i []) pb.origin pb.bin_widths)

/-- The grid shape as a bin coordinate. -/
def shapeTriple (pb : PointBin3D) : Bin := binTriple pb.bin_shape

/-- A bin coordinate within the grid. -/
def binIn (b s : Bin) : Prop :=
  0 ≤ b.1 ∧ b.1 < s.1 ∧ 0 ≤ b.2.1 ∧ b.2.1 < s.2.1 ∧ 0 ≤ b.2.2 ∧ b.2.2 < s.2.2

/-- The 3D array `fm` has exactly the dimensions `s`. -/
def fmDims (fm : FM) (s : Bin) : Prop :=
  fm.length = s.1.toNat ∧ ∀ pl ∈ fm, pl.length = s.2.1.toNat ∧ ∀ r ∈ pl, r.length = s.2.2.toNat

/-- The live (not yet matched) members of bin `b`, in chain order: the
strictly decreasing list of sorted indices whose bin is `b` and which are
not in `F`. -/
def liveL (pb : PointBin3D) (F : List ℕ) (b : Bin) : List ℕ :=
  ((List.range pb.points.length).filter (fun i => decide (binOfS pb i = b ∧ i ∉ F))).reverse

/-- Write the elements of `xs` into `buf` at consecutive positions starting
at `k` (how `radius_search` appends matches to the result buffer). -/
def writeList (buf : List ℤ) (k : ℕ) : List ℕ → List ℤ
  | [] => buf
  | x :: xs => writeList (buf.set k (x : ℤ)) (k + 1) xs

/-- Whether sorted point `i` passes the inclusive distance test. -/
def nearQ (pb : PointBin3D) (q : List ℚ) (rsq : ℚ) (i : ℕ) : Prop :=
  distSq (pb.points.getD i []) q ≤ rsq

instance (pb : PointBin3D) (q : List ℚ) (rsq : ℚ) (i : ℕ) : Decidable (nearQ pb q rsq i) :=
  inferInstanceAs (Decidable (_ ≤ _))

/-- The sublist of `L` passing the inclusive distance test against the
point rows of `P`. -/
def nearFilter (P : Mat) (q : List ℚ) (rsq : ℚ) (L : List ℕ) : List ℕ :=
  L.filter (fun i => decide (distSq (P.getD i []) q ≤ rsq))

/-- The sublist of `L` failing the distance test (the surviving chain). -/
def keepFilter (P : Mat) (q : List ℚ) (rsq : ℚ) (L : List ℕ) : List ℕ :=
  L.filter (fun i => !decide (distSq (P.getD i []) q ≤ rsq))

/-- The sorted indices matched while visiting `bins` in order, starting from
the already-matched set `F`: in each bin, the near members of its live
chain, in chain order. -/
def matchedBins (pb : PointBin3D) (q : List ℚ) (rsq : ℚ) :
    List ℕ → List Bin → List ℕ
  | _, [] => []
  | F, b :: bs =>
    let m := nearFilter pb.points q rsq (liveL pb F b)
    m ++ matchedBins pb q rsq (F ++ m) bs

/-- The full invariant of a reachable state: sizes agree, the found list is
duplicate-free and within range, matched points are tombstoned, and for
every bin of the grid the linked list starting at `first_member` is exactly
the live chain of that bin; the snapshot holds the full (nothing matched)
chains. -/
structure SInv (pb : PointBin3D) : Prop where
  hnext_len : pb.next_member.length = pb.points.length
  hbuf_len : pb.found_indices_buffer.length = pb.points.length
  horig_len : pb.original_indices.length = pb.points.length
  hcount : pb.found_count ≤ pb.points.length
  hfound_lt : ∀ x ∈ pb.found_indices_buffer.take pb.found_count, 0 ≤ x ∧ x.toNat < pb.points.length
  hnodup : (foundL pb).Nodup
  htomb : ∀ i ∈ foundL pb, pb.next_member.getD i 0 = -2
  hdims : fmDims pb.first_member (shapeTriple pb)
  hbin_in : ∀ i < pb.points.length, binIn (binOfS pb i) (shapeTriple pb)
  hchain : ∀ b : Bin, binIn b (shapeTriple pb) →
    Links pb.next_member (fmGet pb.first_member b) (liveL pb (foundL pb) b) (-1)
  hsnap_dims : fmDims pb.original_first_member (shapeTriple pb)
  hsnap_len : pb.original_next_member.length = pb.points.length
  hsnap : ∀ b : Bin, binIn b (shapeTriple pb) →
    Links pb.original_next_member (fmGet pb.original_first_member b) (liveL pb [] b) (-1)
  hwpos : ∀ j < 3, 0 < pb.bin_widths.getD j 0

/-- Everything `chainWalk` guarantees about its result, relative to the kept
prefix `K` and the unprocessed suffix `L` of the chain of bin `b`. -/
structure WalkOut (pb : PointBin3D) (q : List ℚ) (rsq : ℚ) (s b : Bin)
    (K L : List ℕ) (pb' : PointBin3D) : Prop where
  hframe : SameFrame pb pb'
  hcount : pb'.found_count = pb.found_count + (nearFilter pb.points q rsq L).length
  hbuf : pb'.found_indices_buffer =
    writeList pb.found_indices_buffer pb.found_count (nearFilter pb.points q rsq L)
  hblen : pb'.found_indices_buffer.length = pb.found_indices_buffer.length
  hnlen : pb'.next_member.length = pb.next_member.length
  hout : ∀ j : ℕ, j ∉ K ++ L → pb'.next_member.getD j 0 = pb.next_member.getD j 0
  htomb : ∀ j ∈ nearFilter pb.points q rsq L, pb'.next_member.getD j 0 = -2
  hfm : fmGet pb'.first_member b = headIdx (K ++ keepFilter pb.points q rsq L)
  hfm' : ∀ b', binIn b' s → b' ≠ b → fmGet pb'.first_member b' = fmGet pb.first_member b'
  hdims : fmDims pb'.first_member s
  hlinks : Links pb'.next_member (headIdx (K ++ keepFilter pb.points q rsq L))
    (K ++ keepFilter pb.points q rsq L) (-1)

/-- The positions (starting at index `i`) at which `bs` holds bin `b`. -/
def binPos : List Bin → ℕ → Bin → List ℕ
  | [], _, _ => []
  | c :: bs, i, b => (if c = b then [i] else []) ++ binPos bs (i + 1) b

/-- `utils.rs::max_along_axis0`: column-wise maximum of a real matrix, same
access pattern as `min_along_axis0`. -/
def max_along_axis0 (arr : Mat) : Option (List ℚ) :=
  match arr with
  | [] => none
  | r0 :: _ => some (arr.foldl (fun out row => List.zipWith max out row) r0)

/-- Row-major strict ordering of bin coordinates: axis 0 first, then axis 1,
then axis 2 (the visitation order of the triple loop). -/
def binLex (a b : Bin) : Prop :=
  a.1 < b.1 ∨ (a.1 = b.1 ∧ (a.2.1 < b.2.1 ∨ (a.2.1 = b.2.1 ∧ a.2.2 < b.2.2)))

/-! ### Small list lemmas -/

theorem getD_set_self {α} {l : List α} {n : ℕ} {v d : α} (h : n < l.length) :
    (l.set n v).getD n d = v := by
  simp [List.getD_eq_getElem?_getD, List.getElem?_set_self, h]

theorem getD_set_ne {α} {l : List α} {n m : ℕ} {v d : α} (h : n ≠ m) :
    (l.set n v).getD m d = l.getD m d := by
  simp [List.getD_eq_getElem?_getD, List.getElem?_set_ne h]

theorem take_set_succ {α} : ∀ (l : List α) (k : ℕ) (x : α), k < l.length →
    (l.set k x).take (k + 1) = l.take k ++ [x]
  | _ :: _, 0, _, _ => by simp
  | a :: l, k + 1, x, h => by
    simp only [List.set_cons_succ, List.take_succ_cons, List.cons_append, List.cons.injEq,
      true_and]
    exact take_set_succ l k x (by simpa using h)
  | [], _, _, h => by simp at h

theorem take_set_of_le {α} {l : List α} {m k : ℕ} {x : α} (h : m ≤ k) :
    (l.set k x).take m = l.take m := by
  rw [List.set_take, List.set_eq_of_length_le]
  simp only [List.length_take]
  omega

theorem range_map_getD {α} {l : List α} {c : ℕ} {d : α} (h : c ≤ l.length) :
    (List.range c).map (fun i => l.getD i d) = l.take c := by
  apply List.ext_getElem
  · simp; omega
  · intro i h1 h2
    have hi : i < c := by simpa using h1
    have hil : i < l.length := lt_of_lt_of_le hi h
    simp [List.getD_eq_getElem?_getD, List.getElem?_eq_getElem hil, List.getElem_take]

theorem nodup_length_le {l : List ℕ} {n : ℕ} (h : l.Nodup) (h2 : ∀ x ∈ l, x < n) :
    l.length ≤ n := by
  classical
  calc l.length = l.toFinset.card := (List.toFinset_card_of_nodup h).symm
    _ ≤ (Finset.range n).card := Finset.card_le_card (fun x hx => by
        simp only [Finset.mem_range]
        exact h2 x (List.mem_toFinset.mp hx))
    _ = n := Finset.card_range n

/-! ### `writeList` lemmas -/

theorem writeList_length (xs : List ℕ) (buf : List ℤ) (k : ℕ) :
    (writeList buf k xs).length = buf.length := by
  induction xs generalizing buf k with
  | nil => rfl
  | cons x xs ih => simp [writeList, ih]

theorem writeList_take (xs : List ℕ) (buf : List ℤ) (k : ℕ)
    (h : k + xs.length ≤ buf.length) :
    (writeList buf k xs).take (k + xs.length) = buf.take k ++ xs.map (fun x : ℕ => (x : ℤ)) := by
  induction xs generalizing buf k with
  | nil => simp [writeList]
  | cons x xs ih =>
    have hk : k < buf.length := by simp at h; omega
    have harith : k + (x :: xs).length = (k + 1) + xs.length := by simp; omega
    rw [writeList, harith, ih (buf.set k (x : ℤ)) (k + 1) (by simp; omega),
      take_set_succ _ _ _ hk]
    simp

theorem writeList_take_of_le (xs : List ℕ) (buf : List ℤ) {k m : ℕ} (h : m ≤ k) :
    (writeList buf k xs).take m = buf.take m := by
  induction xs generalizing buf k with
  | nil => rfl
  | cons x xs ih => rw [writeList, ih (buf.set k (x : ℤ)) (by omega), take_set_of_le h]

theorem writeList_getD_of_lt (xs : List ℕ) (buf : List ℤ) {k j : ℕ} {d : ℤ} (h : j < k) :
    (writeList buf k xs).getD j d = buf.getD j d := by
  induction xs generalizing buf k with
  | nil => rfl
  | cons x xs ih => rw [writeList, ih (buf.set k (x : ℤ)) (by omega), getD_set_ne (by omega)]

/-! ### `fmGet` / `fmSet` lemmas -/

theorem getD_mem_of_lt {α} (l : List α) (n : ℕ) (d : α) (h : n < l.length) :
    l.getD n d ∈ l := by
  rw [List.getD_eq_getElem _ _ h]
  exact List.getElem_mem _

theorem fm_bounds {fm : FM} {s b : Bin} (hd : fmDims fm s) (hb : binIn b s) :
    b.1.toNat < fm.length ∧
    b.2.1.toNat < (fm.getD b.1.toNat []).length ∧
    b.2.2.toNat < ((fm.getD b.1.toNat []).getD b.2.1.toNat []).length := by
  obtain ⟨hd1, hd2⟩ := hd
  obtain ⟨hb1, hb2, hb3, hb4, hb5, hb6⟩ := hb
  have hx : b.1.toNat < fm.length := by omega
  obtain ⟨hl, hr⟩ := hd2 _ (getD_mem_of_lt fm b.1.toNat [] hx)
  have hy : b.2.1.toNat < (fm.getD b.1.toNat []).length := by omega
  have hz := hr _ (getD_mem_of_lt (fm.getD b.1.toNat []) b.2.1.toNat [] hy)
  exact ⟨hx, hy, by omega⟩

theorem fmDims_fmSet {fm : FM} {s b : Bin} {v : ℤ} (hd : fmDims fm s) (hb : binIn b s) :
    fmDims (fmSet fm b v) s := by
  obtain ⟨hx, hy, _⟩ := fm_bounds hd hb
  obtain ⟨h1, h2⟩ := hd
  refine ⟨by simpa [fmSet] using h1, ?_⟩
  intro pl hpl
  rcases List.mem_or_eq_of_mem_set hpl with hmem | rfl
  · exact h2 pl hmem
  · obtain ⟨hl, hr⟩ := h2 _ (getD_mem_of_lt fm b.1.toNat [] hx)
    refine ⟨by simpa using hl, ?_⟩
    intro r hr'
    rcases List.mem_or_eq_of_mem_set hr' with hmem' | rfl
    · exact hr r hmem'
    · simpa using hr _ (getD_mem_of_lt (fm.getD b.1.toNat []) b.2.1.toNat [] hy)

theorem fmGet_fmSet_self {fm : FM} {s b : Bin} {v : ℤ} (hd : fmDims fm s) (hb : binIn b s) :
    fmGet (fmSet fm b v) b = v := by
  obtain ⟨hx, hy, hz⟩ := fm_bounds hd hb
  unfold fmGet fmSet
  rw [getD_set_self hx, getD_set_self hy, getD_set_self hz]

theorem fmGet_fmSet_ne {fm : FM} {s b b' : Bin} {v : ℤ} (hd : fmDims fm s) (hb : binIn b s)
    (hb' : binIn b' s) (hne : b' ≠ b) :
    fmGet (fmSet fm b v) b' = fmGet fm b' := by
  obtain ⟨hx, hy, _⟩ := fm_bounds hd hb
  obtain ⟨hb1, _, hb3, _, hb5, _⟩ := hb
  obtain ⟨hb1', _, hb3', _, hb5', _⟩ := hb'
  unfold fmGet fmSet
  by_cases e1 : b'.1 = b.1
  · by_cases e2 : b'.2.1 = b.2.1
    · by_cases e3 : b'.2.2 = b.2.2
      · exact absurd (Prod.ext e1 (Prod.ext e2 e3)) hne
      · rw [e1, e2, getD_set_self hx, getD_set_self hy,
          getD_set_ne (by omega)]
    · rw [e1, getD_set_self hx, getD_set_ne (by omega)]
  · rw [getD_set_ne (by omega)]

/-! ### `Links` lemmas -/

theorem Links_congr {next next' : List ℤ} {h t : ℤ} {L : List ℕ}
    (hl : Links next h L t) (hlen : next'.length = next.length)
    (hag : ∀ a ∈ L, next'.getD a 0 = next.getD a 0) :
    Links next' h L t := by
  induction L generalizing h with
  | nil => exact hl
  | cons a L ih =>
    obtain ⟨h1, h2, h3⟩ := hl
    refine ⟨h1, by omega, ?_⟩
    rw [hag a (List.mem_cons_self a L)]
    exact ih h3 (fun x hx => hag x (List.mem_cons_of_mem a hx))

theorem Links_append {next : List ℤ} {h t : ℤ} {K L : List ℕ} :
    Links next h (K ++ L) t ↔ ∃ m, Links next h K m ∧ Links next m L t := by
  induction K generalizing h with
  | nil =>
    constructor
    · intro hl; exact ⟨h, rfl, hl⟩
    · rintro ⟨m, rfl, hl⟩; exact hl
  | cons a K ih =>
    constructor
    · rintro ⟨h1, h2, h3⟩
      obtain ⟨m, hm1, hm2⟩ := ih.mp h3
      exact ⟨m, ⟨h1, h2, hm1⟩, hm2⟩
    · rintro ⟨m, ⟨h1, h2, h3⟩, hl⟩
      exact ⟨h1, h2, ih.mpr ⟨m, h3, hl⟩⟩

theorem Links_headIdx {next : List ℤ} {h : ℤ} {L : List ℕ}
    (hl : Links next h L (-1)) : h = headIdx L := by
  cases L with
  | nil => exact hl
  | cons a L => exact hl.1

theorem Links_head_of_ne {next : List ℤ} {h t : ℤ} {L : List ℕ}
    (hl : Links next h L t) (hne : L ≠ []) : h = headIdx L := by
  cases L with
  | nil => exact absurd rfl hne
  | cons a L => exact hl.1

/-- Retarget a chain: overwrite the `next` slot of its last node. -/
theorem Links_retarget {next : List ℤ} {h m m' : ℤ} {K : List ℕ}
    (hl : Links next h K m) (hK : K ≠ []) (hnd : K.Nodup) :
    Links (next.set (lastIdx K).toNat m') h K m' := by
  induction K generalizing h with
  | nil => exact absurd rfl hK
  | cons a K ih =>
    obtain ⟨h1, h2, h3⟩ := hl
    cases K with
    | nil =>
      refine ⟨h1, by simpa using h2, ?_⟩
      have hlast : lastIdx [a] = (a : ℤ) := by simp [lastIdx]
      rw [hlast, Int.toNat_natCast]
      exact getD_set_self (by simpa using h2)
    | cons c K' =>
      have hlast : lastIdx (a :: c :: K') = lastIdx (c :: K') := by
        simp [lastIdx, List.getLast?_cons_cons]
      have hmem : ((lastIdx (c :: K')).toNat) ∈ c :: K' := by
        have : (c :: K').getLast (by simp) ∈ c :: K' := List.getLast_mem _
        have hgl : lastIdx (c :: K') = ((c :: K').getLast (by simp) : ℤ) := by
          simp [lastIdx, List.getLast?_eq_getLast]
        rw [hgl, Int.toNat_natCast]
        exact this
      have hane : a ≠ (lastIdx (c :: K')).toNat := by
        intro hcon
        exact (List.nodup_cons.mp hnd).1 (hcon ▸ hmem)
      refine ⟨h1, by simpa using h2, ?_⟩
      rw [hlast, getD_set_ne (fun hcon => hane hcon.symm)]
      exact hlast ▸ ih h3 (by simp) (List.nodup_cons.mp hnd).2

theorem Links_getD_of_decr {next : List ℤ} {h : ℤ} {L : List ℕ}
    (hl : Links next h L (-1)) (hdec : L.Chain' (fun x y => y < x)) :
    ∀ a ∈ L, next.getD a 0 = -1 ∨ (0 ≤ next.getD a 0 ∧ next.getD a 0 < (a : ℤ)) := by
  induction L generalizing h with
  | nil => intro a ha; simp at ha
  | cons a L ih =>
    obtain ⟨h1, h2, h3⟩ := hl
    intro x hx
    rcases List.mem_cons.mp hx with rfl | hmem
    · cases L with
      | nil => exact Or.inl h3
      | cons c L' =>
        refine Or.inr ?_
        have hc : next.getD x 0 = (c : ℤ) := h3.1
        have hlt : c < x := (List.chain'_cons.mp hdec).1
        rw [hc]
        constructor
        · exact Int.natCast_nonneg c
        · exact_mod_cast hlt
    · exact ih h3 (List.chain'_cons'.mp hdec).2 x hmem

theorem Links_lt_length {next : List ℤ} {h t : ℤ} {L : List ℕ}
    (hl : Links next h L t) : ∀ a ∈ L, a < next.length := by
  induction L generalizing h with
  | nil => intro a ha; simp at ha
  | cons a L ih =>
    obtain ⟨h1, h2, h3⟩ := hl
    intro x hx
    rcases List.mem_cons.mp hx with rfl | hmem
    · exact h2
    · exact ih h3 x hmem

/-! ### `liveL` lemmas -/

theorem mem_liveL {pb : PointBin3D} {F : List ℕ} {b : Bin} {i : ℕ} :
    i ∈ liveL pb F b ↔ i < pb.points.length ∧ binOfS pb i = b ∧ i ∉ F := by
  simp [liveL, List.mem_filter, and_assoc]

theorem liveL_pairwise (pb : PointBin3D) (F : List ℕ) (b : Bin) :
    (liveL pb F b).Pairwise (fun x y => y < x) := by
  unfold liveL
  rw [List.pairwise_reverse]
  exact (List.pairwise_lt_range _).filter _

theorem liveL_nodup (pb : PointBin3D) (F : List ℕ) (b : Bin) :
    (liveL pb F b).Nodup :=
  (liveL_pairwise pb F b).imp (fun h => Nat.ne_of_gt h)

theorem liveL_append {pb : PointBin3D} {F M : List ℕ} {b : Bin} :
    liveL pb (F ++ M) b = (liveL pb F b).filter (fun i => decide (i ∉ M)) := by
  unfold liveL
  rw [← List.filter_reverse, ← List.filter_reverse, List.filter_filter]
  apply List.filter_congr
  intro x _
  simp only [List.mem_append, decide_eq_true_eq, Bool.and_eq_true, decide_not]
  by_cases h1 : binOfS pb x = b <;> by_cases h2 : x ∈ F <;> by_cases h3 : x ∈ M <;>
    simp [h1, h2, h3]

/-- Frame-equal states have the same live chains. -/
theorem liveL_eq_of_frame {pb pb' : PointBin3D} (hf : SameFrame pb pb') :
    liveL pb' = liveL pb := by
  funext F b
  unfold liveL binOfS
  rw [hf.hp, hf.ho, hf.hw]

theorem binOfS_eq_of_frame {pb pb' : PointBin3D} (hf : SameFrame pb pb') :
    binOfS pb' = binOfS pb := by
  funext i
  unfold binOfS
  rw [hf.hp, hf.ho, hf.hw]

/-! ### `SameFrame` lemmas -/

theorem SameFrame.refl (pb : PointBin3D) : SameFrame pb pb :=
  ⟨rfl, rfl, rfl, rfl, rfl, rfl, rfl, rfl⟩

theorem SameFrame.trans {pb1 pb2 pb3 : PointBin3D}
    (h12 : SameFrame pb1 pb2) (h23 : SameFrame pb2 pb3) : SameFrame pb1 pb3 :=
  ⟨h23.hop.trans h12.hop, h23.hp.trans h12.hp, h23.hw.trans h12.hw, h23.ho.trans h12.ho,
    h23.hoi.trans h12.hoi, h23.hsh.trans h12.hsh, h23.hofm.trans h12.hofm,
    h23.honm.trans h12.honm⟩

theorem shapeTriple_eq_of_frame {pb pb' : PointBin3D} (hf : SameFrame pb pb') :
    shapeTriple pb' = shapeTriple pb := by
  unfold shapeTriple
  rw [hf.hsh]

/-! ### Specification of the chain traversal -/

theorem natCast_ne_neg_one (a : ℕ) : (a : ℤ) ≠ -1 := by omega

theorem lastIdx_nil : lastIdx [] = -1 := rfl

theorem lastIdx_concat (K : List ℕ) (a : ℕ) : lastIdx (K ++ [a]) = (a : ℤ) := by
  simp [lastIdx]

theorem lastIdx_spec {K : List ℕ} (h : K ≠ []) :
    (lastIdx K).toNat ∈ K ∧ lastIdx K = ((lastIdx K).toNat : ℤ) := by
  have hgl : lastIdx K = ((K.getLast h : ℕ) : ℤ) := by
    simp [lastIdx, List.getLast?_eq_getLast K h]
  rw [hgl, Int.toNat_natCast]
  exact ⟨List.getLast_mem h, rfl⟩

theorem lastIdx_ne_neg_one {K : List ℕ} (h : K ≠ []) : lastIdx K ≠ -1 := by
  rw [(lastIdx_spec h).2]
  exact natCast_ne_neg_one _

theorem headIdx_append {K : List ℕ} (h : K ≠ []) (X : List ℕ) :
    headIdx (K ++ X) = headIdx K := by
  cases K with
  | nil => exact absurd rfl h
  | cons a K => rfl

theorem chainWalk_spec (q : List ℚ) (rsq : ℚ) (s b : Bin) :
    ∀ (L K : List ℕ) (pb : PointBin3D) (fuel : ℕ),
      L.length ≤ fuel →
      (∀ j ∈ K ++ L, j < pb.next_member.length) →
      (K ++ L).Pairwise (fun x y => y < x) →
      fmGet pb.first_member b = headIdx (K ++ L) →
      Links pb.next_member (headIdx (K ++ L)) K (headIdx L) →
      Links pb.next_member (headIdx L) L (-1) →
      pb.found_count + L.length ≤ pb.found_indices_buffer.length →
      fmDims pb.first_member s → binIn b s →
      ∃ pb', chainWalk q rsq b fuel (lastIdx K) (headIdx L) pb = some pb' ∧
        WalkOut pb q rsq s b K L pb'
  | [], K, pb, fuel, _, _, _, hfm, hK, _, _, hdims, _ => by
    refine ⟨pb, ?_, ?_⟩
    · cases fuel <;> simp [chainWalk, headIdx]
    · refine ⟨SameFrame.refl pb, ?_, ?_, rfl, rfl, fun j _ => rfl, ?_, ?_, fun b' _ _ => rfl,
        hdims, ?_⟩
      · simp [nearFilter]
      · simp [nearFilter, writeList]
      · intro j hj; simp [nearFilter] at hj
      · simpa [keepFilter] using hfm
      · simpa [keepFilter, headIdx] using hK
  | a :: L', K, pb, fuel, hfuel, hlt, hpw, hfm, hK, hL, hcap, hdims, hb => by
    match fuel with
    | 0 => simp at hfuel
    | f + 1 =>
    -- basic facts about the head element `a`
    have hamem : a ∈ K ++ a :: L' := List.mem_append_right K (List.mem_cons_self a L')
    have halen : a < pb.next_member.length := hlt a hamem
    have hL'links : Links pb.next_member (pb.next_member.getD a 0) L' (-1) := hL.2.2
    have hnexta : pb.next_member.getD a 0 = headIdx L' := Links_headIdx hL'links
    -- pairwise decompositions
    rw [List.pairwise_append] at hpw
    obtain ⟨hpwK, hpwaL, hcross⟩ := hpw
    rw [List.pairwise_cons] at hpwaL
    obtain ⟨haL', hpwL'⟩ := hpwaL
    have haK : a ∉ K := fun hmem => lt_irrefl a (hcross a hmem a (List.mem_cons_self a L'))
    have haL'mem : a ∉ L' := fun hmem => lt_irrefl a (haL' a hmem)
    have hndK : K.Nodup := hpwK.imp (fun h => Nat.ne_of_gt h)
    have hpwKL' : (K ++ L').Pairwise (fun x y => y < x) :=
      List.pairwise_append.mpr ⟨hpwK, hpwL',
        fun x hx y hy => hcross x hx y (List.mem_cons_of_mem a hy)⟩
    have hheadL'ne : headIdx (a :: L') = (a : ℤ) := rfl
    by_cases hnear : distSq (pb.points.getD a []) q ≤ rsq
    · -- the head is matched: unlink it, tombstone it, append it to the buffer
      by_cases hKnil : K = []
      · subst hKnil
        -- `prev = -1`: the bin head is redirected
        set pb3 : PointBin3D :=
          { pb with
            first_member := fmSet pb.first_member b (pb.next_member.getD a 0)
            next_member := pb.next_member.set a (-2)
            found_indices_buffer := pb.found_indices_buffer.set pb.found_count (a : ℤ)
            found_count := pb.found_count + 1 } with hpb3
        have hc3 : pb.found_count < pb.found_indices_buffer.length := by
          simp only [List.length_cons] at hcap
          omega
        have hstep : chainWalk q rsq b (f + 1) (lastIdx []) (headIdx (a :: L')) pb =
            chainWalk q rsq b f (lastIdx []) (pb.next_member.getD a 0) pb3 := by
          rw [hheadL'ne]
          simp only [chainWalk, Int.toNat_natCast]
          rw [if_neg (natCast_ne_neg_one a), if_pos ⟨Int.natCast_nonneg a, halen⟩,
            if_pos hnear, if_pos (show lastIdx [] = -1 from rfl)]
          dsimp only
          rw [if_pos hc3]
        have hfuel' : L'.length ≤ f := by simpa using hfuel
        have hpb3next : pb3.next_member = pb.next_member.set a (-2) := rfl
        have hlt3 : ∀ j ∈ ([] : List ℕ) ++ L', j < pb3.next_member.length := by
          intro j hj
          rw [hpb3next, List.length_set]
          exact hlt j (List.mem_append_right [] (List.mem_cons_of_mem a (by simpa using hj)))
        have hfm3 : fmGet pb3.first_member b = headIdx (([] : List ℕ) ++ L') := by
          show fmGet (fmSet pb.first_member b (pb.next_member.getD a 0)) b = headIdx L'
          rw [fmGet_fmSet_self hdims hb, hnexta]
        have hK3 : Links pb3.next_member (headIdx (([] : List ℕ) ++ L')) [] (headIdx L') :=
          rfl
        have hL3 : Links pb3.next_member (headIdx L') L' (-1) := by
          rw [hpb3next]
          refine Links_congr (hnexta ▸ hL'links) (by simp) ?_
          intro x hx
          exact getD_set_ne (fun hax => haL'mem (hax ▸ hx))
        have hcap3 : pb3.found_count + L'.length ≤ pb3.found_indices_buffer.length := by
          show pb.found_count + 1 + L'.length ≤
            (pb.found_indices_buffer.set pb.found_count (a : ℤ)).length
          rw [List.length_set]
          simp only [List.length_cons] at hcap
          omega
        have hdims3 : fmDims pb3.first_member s := fmDims_fmSet hdims hb
        obtain ⟨pb', hrun, wout⟩ := chainWalk_spec q rsq s b L' [] pb3 f hfuel' hlt3
          (by simpa using hpwL') hfm3 hK3 hL3 hcap3 hdims3 hb
        have hnf : nearFilter pb.points q rsq (a :: L') = a :: nearFilter pb.points q rsq L' := by
          unfold nearFilter
          rw [List.filter_cons_of_pos]
          simpa using hnear
        have hkf : keepFilter pb.points q rsq (a :: L') = keepFilter pb.points q rsq L' := by
          unfold keepFilter
          rw [List.filter_cons_of_neg]
          simpa using hnear
        refine ⟨pb', ?_, ?_⟩
        · rw [hstep, hnexta]
          exact hrun
        · refine ⟨?_, ?_, ?_, ?_, ?_, ?_, ?_, ?_, ?_, wout.hdims, ?_⟩
          · exact SameFrame.trans
              (show SameFrame pb pb3 from ⟨rfl, rfl, rfl, rfl, rfl, rfl, rfl, rfl⟩) wout.hframe
          · rw [hnf, wout.hcount]
            show pb.found_count + 1 + _ = _
            simp only [List.length_cons]
            omega
          · rw [hnf]
            exact wout.hbuf
          · rw [wout.hblen]
            show (pb.found_indices_buffer.set pb.found_count (a : ℤ)).length = _
            simp
          · rw [wout.hnlen]
            show (pb.next_member.set a (-2)).length = _
            simp
          · intro j hj
            simp only [List.nil_append, List.mem_cons, not_or] at hj
            obtain ⟨hj1, hj2⟩ := hj
            rw [wout.hout j (by simpa using hj2)]
            show (pb.next_member.set a (-2)).getD j 0 = _
            exact getD_set_ne (fun h => hj1 h.symm)
          · intro j hj
            rw [hnf] at hj
            rcases List.mem_cons.mp hj with rfl | hj'
            · rw [wout.hout j (by simpa using haL'mem)]
              show (pb.next_member.set j (-2)).getD j 0 = -2
              exact getD_set_self halen
            · exact wout.htomb j hj'
          · rw [hkf]
            exact wout.hfm
          · intro b' hb' hne
            rw [wout.hfm' b' hb' hne]
            show fmGet (fmSet pb.first_member b (pb.next_member.getD a 0)) b' = _
            exact fmGet_fmSet_ne hdims hb hb' hne
          · rw [hkf]
            exact wout.hlinks
      · -- `prev = lastIdx K ≠ -1`: the previous kept node's pointer is fixed up
        obtain ⟨hlastmem, hlastcast⟩ := lastIdx_spec hKnil
        have hlastlen : (lastIdx K).toNat < pb.next_member.length :=
          hlt _ (List.mem_append_left _ hlastmem)
        have hlastneL' : ∀ x ∈ L', (lastIdx K).toNat ≠ x := by
          intro x hx hcon
          exact lt_irrefl x
            (hcon ▸ hcross _ hlastmem x (List.mem_cons_of_mem a hx))
        have hlastnea : (lastIdx K).toNat ≠ a := by
          intro hcon
          exact lt_irrefl a (hcon ▸ hcross _ hlastmem a (List.mem_cons_self a L'))
        have haKne : ∀ x ∈ K, a ≠ x := by
          intro x hx hcon
          exact haK (hcon ▸ hx)
        set pb3 : PointBin3D :=
          { pb with
            next_member :=
              (pb.next_member.set (lastIdx K).toNat (pb.next_member.getD a 0)).set a (-2)
            found_indices_buffer := pb.found_indices_buffer.set pb.found_count (a : ℤ)
            found_count := pb.found_count + 1 } with hpb3
        have hc3 : pb.found_count < pb.found_indices_buffer.length := by
          simp only [List.length_cons] at hcap
          omega
        have hstep : chainWalk q rsq b (f + 1) (lastIdx K) (headIdx (a :: L')) pb =
            chainWalk q rsq b f (lastIdx K) (pb.next_member.getD a 0) pb3 := by
          rw [hheadL'ne]
          simp only [chainWalk, Int.toNat_natCast]
          rw [if_neg (natCast_ne_neg_one a), if_pos ⟨Int.natCast_nonneg a, halen⟩,
            if_pos hnear, if_neg (lastIdx_ne_neg_one hKnil)]
          dsimp only
          rw [if_pos hc3]
        have hfuel' : L'.length ≤ f := by simpa using hfuel
        have hpb3next : pb3.next_member =
            (pb.next_member.set (lastIdx K).toNat (pb.next_member.getD a 0)).set a (-2) := rfl
        have hlt3 : ∀ j ∈ K ++ L', j < pb3.next_member.length := by
          intro j hj
          rw [hpb3next, List.length_set, List.length_set]
          rcases List.mem_append.mp hj with hjK | hjL'
          · exact hlt j (List.mem_append_left _ hjK)
          · exact hlt j (List.mem_append_right _ (List.mem_cons_of_mem a hjL'))
        have hfm3 : fmGet pb3.first_member b = headIdx (K ++ L') := by
          rw [headIdx_append hKnil]
          rw [headIdx_append hKnil] at hfm
          exact hfm
        have hK3 : Links pb3.next_member (headIdx (K ++ L')) K (headIdx L') := by
          have h1 : Links (pb.next_member.set (lastIdx K).toNat (pb.next_member.getD a 0))
              (headIdx (K ++ a :: L')) K (pb.next_member.getD a 0) :=
            Links_retarget hK hKnil hndK
          have h2 : Links pb3.next_member (headIdx (K ++ a :: L')) K
              (pb.next_member.getD a 0) := by
            rw [hpb3next]
            refine Links_congr h1 (by simp) ?_
            intro x hx
            exact getD_set_ne (haKne x hx)
          rw [headIdx_append hKnil] at h2
          rw [headIdx_append hKnil, ← hnexta]
          exact h2
        have hL3 : Links pb3.next_member (headIdx L') L' (-1) := by
          rw [hpb3next]
          refine Links_congr (hnexta ▸ hL'links) (by simp) ?_
          intro x hx
          rw [getD_set_ne (show a ≠ x from fun hax => haL'mem (hax ▸ hx))]
          exact getD_set_ne (hlastneL' x hx)
        have hcap3 : pb3.found_count + L'.length ≤ pb3.found_indices_buffer.length := by
          show pb.found_count + 1 + L'.length ≤
            (pb.found_indices_buffer.set pb.found_count (a : ℤ)).length
          rw [List.length_set]
          simp only [List.length_cons] at hcap
          omega
        obtain ⟨pb', hrun, wout⟩ := chainWalk_spec q rsq s b L' K pb3 f hfuel' hlt3
          hpwKL' hfm3 hK3 hL3 hcap3 hdims hb
        have hnf : nearFilter pb.points q rsq (a :: L') = a :: nearFilter pb.points q rsq L' := by
          unfold nearFilter
          rw [List.filter_cons_of_pos]
          simpa using hnear
        have hkf : keepFilter pb.points q rsq (a :: L') = keepFilter pb.points q rsq L' := by
          unfold keepFilter
          rw [List.filter_cons_of_neg]
          simpa using hnear
        refine ⟨pb', ?_, ?_⟩
        · rw [hstep, hnexta]
          exact hrun
        · refine ⟨?_, ?_, ?_, ?_, ?_, ?_, ?_, ?_, ?_, wout.hdims, ?_⟩
          · exact SameFrame.trans
              (show SameFrame pb pb3 from ⟨rfl, rfl, rfl, rfl, rfl, rfl, rfl, rfl⟩) wout.hframe
          · rw [hnf, wout.hcount]
            show pb.found_count + 1 + _ = _
            simp only [List.length_cons]
            omega
          · rw [hnf]
            exact wout.hbuf
          · rw [wout.hblen]
            show (pb.found_indices_buffer.set pb.found_count (a : ℤ)).length = _
            simp
          · rw [wout.hnlen, hpb3next]
            simp
          · intro j hj
            simp only [List.mem_append, List.mem_cons, not_or] at hj
            obtain ⟨hjK, hja, hjL'⟩ := hj
            rw [wout.hout j (by simp [hjK, hjL'])]
            rw [hpb3next, getD_set_ne (fun h => hja h.symm)]
            exact getD_set_ne (fun h => hjK (h ▸ hlastmem))
          · intro j hj
            rw [hnf] at hj
            rcases List.mem_cons.mp hj with rfl | hj'
            · rw [wout.hout j (by simp [haK, haL'mem])]
              rw [hpb3next]
              exact getD_set_self (by simpa using halen)
            · exact wout.htomb j hj'
          · rw [hkf]
            exact wout.hfm
          · intro b' hb' hne
            exact wout.hfm' b' hb' hne
          · rw [hkf]
            exact wout.hlinks
    · -- the head is not matched: `prev` advances to it and the walk continues
      have hstep : chainWalk q rsq b (f + 1) (lastIdx K) (headIdx (a :: L')) pb =
          chainWalk q rsq b f ((a : ℕ) : ℤ) (pb.next_member.getD a 0) pb := by
        rw [hheadL'ne]
        simp only [chainWalk, Int.toNat_natCast]
        rw [if_neg (natCast_ne_neg_one a), if_pos ⟨Int.natCast_nonneg a, halen⟩,
          if_neg hnear]
      have hfuel' : L'.length ≤ f := by simpa using hfuel
      have hEq : K ++ a :: L' = (K ++ [a]) ++ L' := List.append_cons K a L'
      have hlt' : ∀ j ∈ (K ++ [a]) ++ L', j < pb.next_member.length := by
        rw [← hEq]
        exact hlt
      have hpw' : ((K ++ [a]) ++ L').Pairwise (fun x y => y < x) := by
        rw [← hEq]
        rw [List.pairwise_append]
        refine ⟨hpwK, List.pairwise_cons.mpr ⟨haL', hpwL'⟩, hcross⟩
      have hfm' : fmGet pb.first_member b = headIdx ((K ++ [a]) ++ L') := by
        rw [← hEq]
        exact hfm
      have hK' : Links pb.next_member (headIdx ((K ++ [a]) ++ L')) (K ++ [a]) (headIdx L') := by
        rw [← hEq]
        refine Links_append.mpr ⟨(a : ℤ), ?_, ?_⟩
        · exact hK
        · exact ⟨rfl, halen, hnexta⟩
      have hcap' : pb.found_count + L'.length ≤ pb.found_indices_buffer.length := by
        simp only [List.length_cons] at hcap
        omega
      have hL'h : Links pb.next_member (headIdx L') L' (-1) := hnexta ▸ hL'links
      obtain ⟨pb', hrun, wout⟩ := chainWalk_spec q rsq s b L' (K ++ [a]) pb f hfuel' hlt'
        hpw' hfm' hK' hL'h hcap' hdims hb
      have hnf : nearFilter pb.points q rsq (a :: L') = nearFilter pb.points q rsq L' := by
        unfold nearFilter
        rw [List.filter_cons_of_neg]
        simpa using hnear
      have hkf : keepFilter pb.points q rsq (a :: L') = a :: keepFilter pb.points q rsq L' := by
        unfold keepFilter
        rw [List.filter_cons_of_pos]
        simpa using hnear
      have hkeepEq : K ++ a :: keepFilter pb.points q rsq L' =
          (K ++ [a]) ++ keepFilter pb.points q rsq L' :=
        List.append_cons K a (keepFilter pb.points q rsq L')
      refine ⟨pb', ?_, ?_⟩
      · rw [hstep, hnexta]
        rw [lastIdx_concat] at hrun
        exact hrun
      · refine ⟨wout.hframe, ?_, ?_, wout.hblen, wout.hnlen, ?_, ?_, ?_, wout.hfm',
          wout.hdims, ?_⟩
        · rw [hnf]
          exact wout.hcount
        · rw [hnf]
          exact wout.hbuf
        · intro j hj
          exact wout.hout j (hEq ▸ hj)
        · intro j hj
          rw [hnf] at hj
          exact wout.htomb j hj
        · rw [hkf, hkeepEq]
          exact wout.hfm
        · rw [hkf, hkeepEq]
          exact wout.hlinks

/-! ### Lemmas preparing the per-bin induction of `searchBins` -/

theorem liveL_length_le (pb : PointBin3D) (F : List ℕ) (b : Bin) :
    (liveL pb F b).length ≤ pb.points.length := by
  unfold liveL
  rw [List.length_reverse]
  exact le_trans (List.length_filter_le _ _) (by simp)

theorem foundL_length {pb : PointBin3D} (h : pb.found_count ≤ pb.found_indices_buffer.length) :
    (foundL pb).length = pb.found_count := by
  unfold foundL
  rw [List.length_map, List.length_take]
  omega

theorem mem_nearFilter_liveL {pb : PointBin3D} {q : List ℚ} {rsq : ℚ} {F : List ℕ} {b : Bin}
    {i : ℕ} :
    i ∈ nearFilter pb.points q rsq (liveL pb F b) ↔
      i ∈ liveL pb F b ∧ distSq (pb.points.getD i []) q ≤ rsq := by
  unfold nearFilter
  rw [List.mem_filter]
  simp

/-- Filtering the matched elements out of the live chain of the processed
bin leaves exactly the kept elements. -/
theorem liveL_filter_matched_self (pb : PointBin3D) (q : List ℚ) (rsq : ℚ) (F : List ℕ)
    (b : Bin) :
    (liveL pb F b).filter
        (fun i => decide (i ∉ nearFilter pb.points q rsq (liveL pb F b))) =
      keepFilter pb.points q rsq (liveL pb F b) := by
  unfold keepFilter
  apply List.filter_congr
  intro x hx
  have hiff : (x ∈ nearFilter pb.points q rsq (liveL pb F b)) ↔
      distSq (pb.points.getD x []) q ≤ rsq :=
    mem_nearFilter_liveL.trans (and_iff_right hx)
  rw [decide_eq_decide.mpr (not_congr hiff), decide_not]

/-- Filtering the matched elements of bin `b` out of the live chain of a
different bin changes nothing. -/
theorem liveL_filter_matched_other (pb : PointBin3D) (q : List ℚ) (rsq : ℚ) (F : List ℕ)
    {b b' : Bin} (hne : b' ≠ b) :
    (liveL pb F b').filter
        (fun i => decide (i ∉ nearFilter pb.points q rsq (liveL pb F b))) =
      liveL pb F b' := by
  rw [List.filter_eq_self]
  intro x hx
  have hb' : binOfS pb x = b' := (mem_liveL.mp hx).2.1
  apply decide_eq_true
  intro hmem
  have hb2 : binOfS pb x = b := (mem_liveL.mp (mem_nearFilter_liveL.mp hmem).1).2.1
  exact hne (hb'.symm.trans hb2)

theorem matchedBins_eq_of_frame {pb pb' : PointBin3D} (hf : SameFrame pb pb')
    (q : List ℚ) (rsq : ℚ) : ∀ bins F, matchedBins pb' q rsq F bins = matchedBins pb q rsq F bins
  | [], _ => rfl
  | b :: bs, F => by
    rw [matchedBins, matchedBins, hf.hp, liveL_eq_of_frame hf,
      matchedBins_eq_of_frame hf q rsq bs _]

/-- Specification of the bin loop: visiting `bins` preserves the invariant,
the frame, and appends exactly `matchedBins` to the found list. -/
theorem searchBins_spec (q : List ℚ) (rsq : ℚ) :
    ∀ (bins : List Bin) (pb : PointBin3D), SInv pb →
      (∀ b ∈ bins, binIn b (shapeTriple pb)) →
      ∃ pb', searchBins q rsq bins pb = some pb' ∧ SameFrame pb pb' ∧ SInv pb' ∧
        foundL pb' = foundL pb ++ matchedBins pb q rsq (foundL pb) bins ∧
        pb.found_count ≤ pb'.found_count
  | [], pb, hinv, _ => ⟨pb, rfl, SameFrame.refl pb, hinv, by simp [matchedBins], le_refl _⟩
  | b :: bs, pb, hinv, hbins => by
    have hb : binIn b (shapeTriple pb) := hbins b (List.mem_cons_self b bs)
    have hcble : pb.found_count ≤ pb.found_indices_buffer.length := by
      rw [hinv.hbuf_len]
      exact hinv.hcount
    have hflen : (foundL pb).length = pb.found_count := foundL_length hcble
    have hFlt : ∀ x ∈ foundL pb, x < pb.points.length := by
      intro x hx
      obtain ⟨y, hy, rfl⟩ := List.mem_map.mp hx
      exact (hinv.hfound_lt y hy).2
    have hFL_nodup : (foundL pb ++ liveL pb (foundL pb) b).Nodup := by
      rw [List.nodup_append]
      exact ⟨hinv.hnodup, liveL_nodup pb (foundL pb) b,
        fun x hxF hxL => (mem_liveL.mp hxL).2.2 hxF⟩
    have hFL_lt : ∀ x ∈ foundL pb ++ liveL pb (foundL pb) b, x < pb.points.length := by
      intro x hx
      rcases List.mem_append.mp hx with hxF | hxL
      · exact hFlt x hxF
      · exact (mem_liveL.mp hxL).1
    have hcap : pb.found_count + (liveL pb (foundL pb) b).length ≤
        pb.found_indices_buffer.length := by
      have hn := nodup_length_le hFL_nodup hFL_lt
      rw [List.length_append, hflen] at hn
      rw [hinv.hbuf_len]
      omega
    have hch : Links pb.next_member (fmGet pb.first_member b)
        (liveL pb (foundL pb) b) (-1) := hinv.hchain b hb
    have hfm0 : fmGet pb.first_member b = headIdx (liveL pb (foundL pb) b) :=
      Links_headIdx hch
    have hfuel : (liveL pb (foundL pb) b).length ≤ pb.next_member.length := by
      rw [hinv.hnext_len]
      exact liveL_length_le pb (foundL pb) b
    have hlt : ∀ j ∈ ([] : List ℕ) ++ liveL pb (foundL pb) b, j < pb.next_member.length := by
      intro j hj
      rw [hinv.hnext_len]
      exact (mem_liveL.mp (by simpa using hj)).1
    have hpw : (([] : List ℕ) ++ liveL pb (foundL pb) b).Pairwise (fun x y => y < x) := by
      simpa using liveL_pairwise pb (foundL pb) b
    obtain ⟨pb1, hwalk, wout⟩ := chainWalk_spec q rsq (shapeTriple pb) b
      (liveL pb (foundL pb) b) [] pb pb.next_member.length hfuel hlt hpw hfm0 rfl
      (by rw [← hfm0]; exact hch) hcap hinv.hdims hb
    rw [lastIdx_nil, ← hfm0] at hwalk
    -- notation for the matched and kept sublists of this bin
    have hMsub : ∀ x ∈ nearFilter pb.points q rsq (liveL pb (foundL pb) b),
        x ∈ liveL pb (foundL pb) b :=
      fun x hx => (mem_nearFilter_liveL.mp hx).1
    have hMlen : (nearFilter pb.points q rsq (liveL pb (foundL pb) b)).length ≤
        (liveL pb (foundL pb) b).length := List.length_filter_le _ _
    have hFM_nodup : (foundL pb ++ nearFilter pb.points q rsq (liveL pb (foundL pb) b)).Nodup := by
      rw [List.nodup_append]
      refine ⟨hinv.hnodup, (liveL_nodup pb (foundL pb) b).filter _, ?_⟩
      intro x hxF hxM
      exact (mem_liveL.mp (hMsub x hxM)).2.2 hxF
    have hFM_lt : ∀ x ∈ foundL pb ++ nearFilter pb.points q rsq (liveL pb (foundL pb) b),
        x < pb.points.length := by
      intro x hx
      rcases List.mem_append.mp hx with hxF | hxM
      · exact hFlt x hxF
      · exact (mem_liveL.mp (hMsub x hxM)).1
    have hFM_len : pb.found_count +
        (nearFilter pb.points q rsq (liveL pb (foundL pb) b)).length ≤ pb.points.length := by
      have hn := nodup_length_le hFM_nodup hFM_lt
      rw [List.length_append, hflen] at hn
      omega
    have hbt : pb1.found_indices_buffer.take pb1.found_count =
        pb.found_indices_buffer.take pb.found_count ++
          (nearFilter pb.points q rsq (liveL pb (foundL pb) b)).map (fun x : ℕ => (x : ℤ)) := by
      rw [wout.hbuf, wout.hcount]
      exact writeList_take _ _ _ (by rw [hinv.hbuf_len]; omega)
    have hcast : ∀ Mx : List ℕ, (Mx.map (fun x : ℕ => (x : ℤ))).map Int.toNat = Mx := by
      intro Mx
      rw [List.map_map]
      have hco : (Int.toNat ∘ fun x : ℕ => (x : ℤ)) = id := by
        funext x
        simp
      rw [hco, List.map_id]
    have hfound1 : foundL pb1 =
        foundL pb ++ nearFilter pb.points q rsq (liveL pb (foundL pb) b) := by
      show (pb1.found_indices_buffer.take pb1.found_count).map Int.toNat = _
      rw [hbt, List.map_append, hcast]
      rfl
    have hsh1 : shapeTriple pb1 = shapeTriple pb := shapeTriple_eq_of_frame wout.hframe
    have hbin1 : binOfS pb1 = binOfS pb := binOfS_eq_of_frame wout.hframe
    have hlive1 : liveL pb1 = liveL pb := liveL_eq_of_frame wout.hframe
    have hinv1 : SInv pb1 := by
      constructor
      · rw [wout.hnlen, wout.hframe.hp]
        exact hinv.hnext_len
      · rw [wout.hblen, wout.hframe.hp]
        exact hinv.hbuf_len
      · rw [wout.hframe.hoi, wout.hframe.hp]
        exact hinv.horig_len
      · rw [wout.hcount, wout.hframe.hp]
        exact hFM_len
      · intro x hx
        rw [hbt] at hx
        rw [wout.hframe.hp]
        rcases List.mem_append.mp hx with hxF | hxM
        · exact hinv.hfound_lt x hxF
        · obtain ⟨m, hm, rfl⟩ := List.mem_map.mp hxM
          refine ⟨Int.natCast_nonneg m, ?_⟩
          rw [Int.toNat_natCast]
          exact (mem_liveL.mp (hMsub m hm)).1
      · rw [hfound1]
        exact hFM_nodup
      · intro i hi
        rw [hfound1] at hi
        rcases List.mem_append.mp hi with hiF | hiM
        · rw [wout.hout i (by
            simp only [List.nil_append]
            exact fun hiL => (mem_liveL.mp hiL).2.2 hiF)]
          exact hinv.htomb i hiF
        · exact wout.htomb i hiM
      · rw [hsh1]
        exact wout.hdims
      · intro i hi
        rw [hsh1, hbin1]
        rw [wout.hframe.hp] at hi
        exact hinv.hbin_in i hi
      · intro b' hb'
        rw [hsh1] at hb'
        rw [hlive1, hfound1, liveL_append]
        by_cases hbe : b' = b
        · subst hbe
          rw [liveL_filter_matched_self]
          rw [wout.hfm]
          simpa using wout.hlinks
        · rw [liveL_filter_matched_other pb q rsq (foundL pb) hbe]
          rw [wout.hfm' b' hb' hbe]
          refine Links_congr (hinv.hchain b' hb') wout.hnlen ?_
          intro x hx
          refine wout.hout x ?_
          simp only [List.nil_append]
          intro hxL
          exact hbe ((mem_liveL.mp hx).2.1.symm.trans (mem_liveL.mp hxL).2.1)
      · rw [hsh1, wout.hframe.hofm]
        exact hinv.hsnap_dims
      · rw [wout.hframe.honm, wout.hframe.hp]
        exact hinv.hsnap_len
      · intro b' hb'
        rw [hsh1] at hb'
        rw [wout.hframe.hofm, wout.hframe.honm, hlive1]
        exact hinv.hsnap b' hb'
      · rw [wout.hframe.hw]
        exact hinv.hwpos
    obtain ⟨pb2, hrun2, hframe2, hinv2, hfound2, hmono2⟩ :=
      searchBins_spec q rsq bs pb1 hinv1 (by
        intro b' hb'
        rw [hsh1]
        exact hbins b' (List.mem_cons_of_mem b hb'))
    refine ⟨pb2, ?_, SameFrame.trans wout.hframe hframe2, hinv2, ?_, ?_⟩
    · rw [searchBins, hwalk]
      exact hrun2
    · rw [hfound2, matchedBins_eq_of_frame wout.hframe, hfound1, matchedBins]
      rw [List.append_assoc]
    · calc pb.found_count ≤ pb1.found_count := by rw [wout.hcount]; omega
        _ ≤ pb2.found_count := hmono2

/-! ### The visited bins cover every point within the radius -/

theorem mem_intRange {lo hi x : ℤ} : x ∈ intRange lo hi ↔ lo ≤ x ∧ x ≤ hi := by
  unfold intRange
  simp only [List.mem_map, List.mem_range]
  constructor
  · rintro ⟨k, hk, rfl⟩
    omega
  · intro ⟨h1, h2⟩
    exact ⟨(x - lo).toNat, by omega, by omega⟩

theorem mem_visitBins {pb : PointBin3D} {q : List ℚ} {r : ℚ} {b : Bin} :
    b ∈ visitBins pb q r ↔
      (loBin pb q r 0 ≤ b.1 ∧ b.1 ≤ hiBin pb q r 0) ∧
      (loBin pb q r 1 ≤ b.2.1 ∧ b.2.1 ≤ hiBin pb q r 1) ∧
      (loBin pb q r 2 ≤ b.2.2 ∧ b.2.2 ≤ hiBin pb q r 2) := by
  obtain ⟨x, y, z⟩ := b
  unfold visitBins
  simp only [List.mem_flatMap, List.mem_map, Prod.mk.injEq]
  constructor
  · rintro ⟨ix, hix, iy, hiy, iz, hiz, rfl, rfl, rfl⟩
    exact ⟨mem_intRange.mp hix, mem_intRange.mp hiy, mem_intRange.mp hiz⟩
  · rintro ⟨hx, hy, hz⟩
    exact ⟨x, mem_intRange.mpr hx, y, mem_intRange.mpr hy, z,
      mem_intRange.mpr hz, rfl, rfl, rfl⟩

theorem binOfS_def (pb : PointBin3D) (i : ℕ) :
    binOfS pb i =
      (binCoord ((pb.points.getD i []).getD 0 0) (pb.origin.getD 0 0) (pb.bin_widths.getD 0 0),
       binCoord ((pb.points.getD i []).getD 1 0) (pb.origin.getD 1 0) (pb.bin_widths.getD 1 0),
       binCoord ((pb.points.getD i []).getD 2 0) (pb.origin.getD 2 0)
         (pb.bin_widths.getD 2 0)) := rfl

theorem distSq_def (p q : List ℚ) :
    distSq p q = 0 + (p.getD 0 0 - q.getD 0 0) * (p.getD 0 0 - q.getD 0 0)
      + (p.getD 1 0 - q.getD 1 0) * (p.getD 1 0 - q.getD 1 0)
      + (p.getD 2 0 - q.getD 2 0) * (p.getD 2 0 - q.getD 2 0) := rfl

/-- One axis of the coverage argument: if the point's coordinate is within
`radius` of the query's on axis `j`, then its bin coordinate on that axis
falls between the unclamped box corners. -/
theorem binCoord_between {c q r o w : ℚ} (hw : 0 < w) (h1 : q - r ≤ c) (h2 : c ≤ q + r) :
    binCoord (q - r) o w ≤ binCoord c o w ∧ binCoord c o w ≤ binCoord (q + r) o w := by
  unfold binCoord
  constructor
  · exact Int.floor_le_floor ((div_le_div_iff_of_pos_right hw).mpr (by linarith))
  · exact Int.floor_le_floor ((div_le_div_iff_of_pos_right hw).mpr (by linarith))

/-- A live point within the (inclusive) search radius lies in one of the
visited bins: the unclamped box contains its bin by monotonicity of the
floor, and the grid bounds make the clamping harmless. -/
theorem binOfS_mem_visitBins {pb : PointBin3D} (hinv : SInv pb) {q : List ℚ} {r : ℚ}
    {i : ℕ} (hi : i < pb.points.length) (hr : 0 ≤ r)
    (hnear : distSq (pb.points.getD i []) q ≤ r * r) :
    binOfS pb i ∈ visitBins pb q r := by
  have hbin := hinv.hbin_in i hi
  rw [mem_visitBins]
  have haxis : ∀ j < 3,
      binCoord (q.getD j 0 - r) (pb.origin.getD j 0) (pb.bin_widths.getD j 0) ≤
        binCoord ((pb.points.getD i []).getD j 0) (pb.origin.getD j 0)
          (pb.bin_widths.getD j 0) ∧
      binCoord ((pb.points.getD i []).getD j 0) (pb.origin.getD j 0)
          (pb.bin_widths.getD j 0) ≤
        binCoord (q.getD j 0 + r) (pb.origin.getD j 0) (pb.bin_widths.getD j 0) := by
    intro j hj
    have hw := hinv.hwpos j hj
    have hd : ((pb.points.getD i []).getD j 0 - q.getD j 0) *
        ((pb.points.getD i []).getD j 0 - q.getD j 0) ≤ r * r := by
      rw [distSq_def] at hnear
      interval_cases j <;> nlinarith [mul_self_nonneg ((pb.points.getD i []).getD 0 0 - q.getD 0 0),
        mul_self_nonneg ((pb.points.getD i []).getD 1 0 - q.getD 1 0),
        mul_self_nonneg ((pb.points.getD i []).getD 2 0 - q.getD 2 0)]
    have h1 : q.getD j 0 - r ≤ (pb.points.getD i []).getD j 0 := by nlinarith
    have h2 : (pb.points.getD i []).getD j 0 ≤ q.getD j 0 + r := by nlinarith
    exact binCoord_between hw h1 h2
  have e0 : (binOfS pb i).1 = binCoord ((pb.points.getD i []).getD 0 0) (pb.origin.getD 0 0)
      (pb.bin_widths.getD 0 0) := rfl
  have e1 : (binOfS pb i).2.1 = binCoord ((pb.points.getD i []).getD 1 0) (pb.origin.getD 1 0)
      (pb.bin_widths.getD 1 0) := rfl
  have e2 : (binOfS pb i).2.2 = binCoord ((pb.points.getD i []).getD 2 0) (pb.origin.getD 2 0)
      (pb.bin_widths.getD 2 0) := rfl
  have s0 : (shapeTriple pb).1 = pb.bin_shape.getD 0 0 := rfl
  have s1 : (shapeTriple pb).2.1 = pb.bin_shape.getD 1 0 := rfl
  have s2 : (shapeTriple pb).2.2 = pb.bin_shape.getD 2 0 := rfl
  obtain ⟨hb0, hb0', hb1, hb1', hb2, hb2'⟩ := hbin
  rw [e0] at hb0 hb0'
  rw [e1] at hb1 hb1'
  rw [e2] at hb2 hb2'
  rw [s0] at hb0'
  rw [s1] at hb1'
  rw [s2] at hb2'
  have h0 := haxis 0 (by omega)
  have h1 := haxis 1 (by omega)
  have h2 := haxis 2 (by omega)
  unfold loBin hiBin
  rw [e0, e1, e2]
  refine ⟨⟨?_, ?_⟩, ⟨?_, ?_⟩, ⟨?_, ?_⟩⟩ <;> simp only [le_max_iff, max_le_iff, le_min_iff] <;>
    omega

/-- Full specification of one `radius_search` call from a valid state. -/
theorem radius_search_spec {pb : PointBin3D} (hinv : SInv pb) (q : List ℚ) (r : ℚ)
    (hq : q.length = 3) :
    ∃ pb', pb.radius_search q r = .ok pb' ∧ SameFrame pb pb' ∧ SInv pb' ∧
      foundL pb' = foundL pb ++ matchedBins pb q (r * r) (foundL pb) (visitBins pb q r) ∧
      pb.found_count ≤ pb'.found_count := by
  have hbins : ∀ b ∈ visitBins pb q r, binIn b (shapeTriple pb) := by
    intro b hb
    rw [mem_visitBins] at hb
    obtain ⟨⟨h0, h0'⟩, ⟨h1, h1'⟩, ⟨h2, h2'⟩⟩ := hb
    simp only [loBin, hiBin, le_max_iff, max_le_iff, le_min_iff, min_le_iff]
      at h0 h0' h1 h1' h2 h2'
    have s0 : (shapeTriple pb).1 = pb.bin_shape.getD 0 0 := rfl
    have s1 : (shapeTriple pb).2.1 = pb.bin_shape.getD 1 0 := rfl
    have s2 : (shapeTriple pb).2.2 = pb.bin_shape.getD 2 0 := rfl
    rw [show binIn b (shapeTriple pb) =
      (0 ≤ b.1 ∧ b.1 < pb.bin_shape.getD 0 0 ∧ 0 ≤ b.2.1 ∧ b.2.1 < pb.bin_shape.getD 1 0 ∧
        0 ≤ b.2.2 ∧ b.2.2 < pb.bin_shape.getD 2 0) from rfl]
    omega
  obtain ⟨pb', hrun, hframe, hinv', hfound, hmono⟩ :=
    searchBins_spec q (r * r) (visitBins pb q r) pb hinv hbins
  refine ⟨pb', ?_, hframe, hinv', hfound, hmono⟩
  unfold PointBin3D.radius_search
  rw [if_neg (fun h => h hq), hrun]

/-- The per-call found-set characterisation: membership in `matchedBins`
over all the visited bins. -/
theorem mem_matchedBins {pb : PointBin3D} {q : List ℚ} {rsq : ℚ} :
    ∀ (bins : List Bin) (F : List ℕ) (i : ℕ),
      i ∈ matchedBins pb q rsq F bins ↔
        i < pb.points.length ∧ i ∉ F ∧ binOfS pb i ∈ bins ∧
          distSq (pb.points.getD i []) q ≤ rsq
  | [], F, i => by simp [matchedBins]
  | b :: bs, F, i => by
    rw [matchedBins]
    simp only [List.mem_append]
    constructor
    · rintro (him | hirec)
      · obtain ⟨hlive, hnear⟩ := mem_nearFilter_liveL.mp him
        obtain ⟨hn, hbin, hF⟩ := mem_liveL.mp hlive
        exact ⟨hn, hF, by rw [hbin]; exact List.mem_cons_self b bs, hnear⟩
      · obtain ⟨hn, hF, hbin, hnear⟩ := (mem_matchedBins bs _ i).mp hirec
        exact ⟨hn, fun hiF => hF (List.mem_append_left _ hiF),
          List.mem_cons_of_mem b hbin, hnear⟩
    · rintro ⟨hn, hF, hbin, hnear⟩
      by_cases him : i ∈ nearFilter pb.points q rsq (liveL pb F b)
      · exact Or.inl him
      · refine Or.inr ((mem_matchedBins bs _ i).mpr ⟨hn, ?_, ?_, hnear⟩)
        · intro hmem
          rcases List.mem_append.mp hmem with h | h
          · exact hF h
          · exact him h
        · rcases List.mem_cons.mp hbin with hbb | hbs
          · exact absurd (mem_nearFilter_liveL.mpr ⟨mem_liveL.mpr ⟨hn, hbb, hF⟩, hnear⟩) him
          · exact hbs

/-- One call from a valid state: as a set of sorted indices, the found list
grows by exactly the live points within the radius (for `r ≥ 0`). -/
theorem radius_search_found {pb pb' : PointBin3D} (hinv : SInv pb) {q : List ℚ} {r : ℚ}
    (hq : q.length = 3) (hr : 0 ≤ r) (hrun : pb.radius_search q r = .ok pb') :
    ∀ i : ℕ, i ∈ foundL pb' ↔ i ∈ foundL pb ∨
      (i < pb.points.length ∧ distSq (pb.points.getD i []) q ≤ r * r) := by
  obtain ⟨pb'', hrun', _, _, hfound, _⟩ := radius_search_spec hinv q r hq
  rw [hrun] at hrun'
  have hpe : pb' = pb'' := by injection hrun'
  subst hpe
  intro i
  rw [hfound, List.mem_append, mem_matchedBins]
  constructor
  · rintro (h | ⟨hn, _, _, hnear⟩)
    · exact Or.inl h
    · exact Or.inr ⟨hn, hnear⟩
  · rintro (h | ⟨hn, hnear⟩)
    · exact Or.inl h
    · by_cases hF : i ∈ foundL pb
      · exact Or.inl hF
      · exact Or.inr ⟨hn, hF, binOfS_mem_visitBins hinv hn hr hnear, hnear⟩

/-! ### Sessions, reset, reachability -/

theorem runSearches_spec :
    ∀ (qs : List (List ℚ × ℚ)) (pb : PointBin3D), SInv pb →
      (∀ p ∈ qs, p.1.length = 3 ∧ 0 ≤ p.2) →
      ∃ pb', runSearches pb qs = .ok pb' ∧ SameFrame pb pb' ∧ SInv pb' ∧
        (∀ i : ℕ, i ∈ foundL pb' ↔ i ∈ foundL pb ∨
          (i < pb.points.length ∧ ∃ p ∈ qs, distSq (pb.points.getD i []) p.1 ≤ p.2 * p.2))
  | [], pb, hinv, _ => ⟨pb, rfl, SameFrame.refl pb, hinv, by simp⟩
  | (q, r) :: rest, pb, hinv, hqs => by
    obtain ⟨hq3, hr⟩ := hqs (q, r) (List.mem_cons_self _ _)
    obtain ⟨pb1, hrun1, hframe1, hinv1, _, _⟩ := radius_search_spec hinv q r hq3
    have hstep := radius_search_found hinv hq3 hr hrun1
    obtain ⟨pb2, hrun2, hframe2, hinv2, hiff2⟩ := runSearches_spec rest pb1 hinv1
      (fun p hp => hqs p (List.mem_cons_of_mem _ hp))
    refine ⟨pb2, ?_, SameFrame.trans hframe1 hframe2, hinv2, ?_⟩
    · rw [runSearches, hrun1]
      exact hrun2
    · intro i
      rw [hiff2 i, hstep i, hframe1.hp]
      constructor
      · rintro ((h | ⟨hn, hnear⟩) | ⟨hn, p, hp, hnear⟩)
        · exact Or.inl h
        · exact Or.inr ⟨hn, (q, r), List.mem_cons_self _ _, hnear⟩
        · exact Or.inr ⟨hn, p, List.mem_cons_of_mem _ hp, hnear⟩
      · rintro (h | ⟨hn, p, hp, hnear⟩)
        · exact Or.inl (Or.inl h)
        · rcases List.mem_cons.mp hp with rfl | hp'
          · exact Or.inl (Or.inr ⟨hn, hnear⟩)
          · exact Or.inr ⟨hn, p, hp', hnear⟩

theorem foundL_reset (pb : PointBin3D) : foundL pb.reset = [] := rfl

theorem SameFrame_reset (pb : PointBin3D) : SameFrame pb pb.reset :=
  ⟨rfl, rfl, rfl, rfl, rfl, rfl, rfl, rfl⟩

theorem reset_SInv {pb : PointBin3D} (hinv : SInv pb) : SInv pb.reset := by
  constructor
  · exact hinv.hsnap_len
  · exact hinv.hbuf_len
  · exact hinv.horig_len
  · exact Nat.zero_le _
  · intro x hx
    simp [PointBin3D.reset] at hx
  · exact List.nodup_nil
  · intro i hi
    simp [foundL_reset] at hi
  · exact hinv.hsnap_dims
  · exact hinv.hbin_in
  · intro b hb
    exact hinv.hsnap b hb
  · exact hinv.hsnap_dims
  · exact hinv.hsnap_len
  · intro b hb
    exact hinv.hsnap b hb
  · exact hinv.hwpos

/-- The invariant and the frame are preserved along every reachable state. -/
theorem Reach_SInv {pb0 pb : PointBin3D} (h0 : SInv pb0) (hr : Reach pb0 pb) :
    SInv pb ∧ SameFrame pb0 pb := by
  induction hr with
  | refl => exact ⟨h0, SameFrame.refl pb0⟩
  | @search pb1 pb2 q r _ hrun ih =>
    by_cases hq : q.length = 3
    · obtain ⟨pb'', hrun', hframe', hinv', _, _⟩ := radius_search_spec ih.1 q r hq
      rw [hrun] at hrun'
      have hpe : pb2 = pb'' := by injection hrun'
      subst hpe
      exact ⟨hinv', SameFrame.trans ih.2 hframe'⟩
    · rw [PointBin3D.radius_search, if_pos hq] at hrun
      cases hrun
  | reset _ ih => exact ⟨reset_SInv ih.1, SameFrame.trans ih.2 (SameFrame_reset _)⟩

/-- `found_indices` is the found list mapped through `original_indices`. -/
theorem found_indices_eq {pb : PointBin3D}
    (h : pb.found_count ≤ pb.found_indices_buffer.length) :
    pb.found_indices = (foundL pb).map (fun s => pb.original_indices.getD s 0) := by
  show (List.range pb.found_count).map
      (fun i => pb.original_indices.getD (pb.found_indices_buffer.getD i 0).toNat 0) = _
  rw [show (fun i => pb.original_indices.getD (pb.found_indices_buffer.getD i 0).toNat 0) =
      ((fun x : ℤ => pb.original_indices.getD x.toNat 0) ∘
        (fun i : ℕ => pb.found_indices_buffer.getD i 0)) from rfl,
    ← List.map_map, range_map_getD h]
  unfold foundL
  rw [List.map_map]
  rfl

/-! ### Column reductions: fold characterisations -/

theorem getD_zipWith {α} [LinearOrder α] {a b : List α} {j : ℕ} {d : α}
    (f : α → α → α) (ha : j < a.length) (hb : j < b.length) :
    (List.zipWith f a b).getD j d = f (a.getD j d) (b.getD j d) := by
  rw [List.getD_eq_getElem _ _ (by rw [List.length_zipWith]; omega),
    List.getD_eq_getElem _ _ ha, List.getD_eq_getElem _ _ hb, List.getElem_zipWith]

theorem foldl_zipf_getD {α} [LinearOrder α] (f : α → α → α) (d : α) :
    ∀ (rs : List (List α)) (acc : List α) (c : ℕ), acc.length = c →
      (∀ r ∈ rs, r.length = c) → ∀ j < c,
      (rs.foldl (fun o r => List.zipWith f o r) acc).length = c ∧
      (rs.foldl (fun o r => List.zipWith f o r) acc).getD j d =
        rs.foldl (fun v r => f v (r.getD j d)) (acc.getD j d)
  | [], acc, c, hacc, _, j, hj => ⟨hacc, rfl⟩
  | r :: rs, acc, c, hacc, hrs, j, hj => by
    have hr : r.length = c := hrs r (List.mem_cons_self r rs)
    have hlen : (List.zipWith f acc r).length = c := by
      rw [List.length_zipWith]
      omega
    have ih := foldl_zipf_getD f d rs (List.zipWith f acc r) c hlen
      (fun x hx => hrs x (List.mem_cons_of_mem r hx)) j hj
    refine ⟨ih.1, ?_⟩
    rw [List.foldl_cons, ih.2, List.foldl_cons,
      getD_zipWith f (by omega) (by omega)]

theorem foldl_zipf_length {α} [LinearOrder α] (f : α → α → α) :
    ∀ (rs : List (List α)) (acc : List α) (c : ℕ), acc.length = c →
      (∀ r ∈ rs, r.length = c) →
      (rs.foldl (fun o r => List.zipWith f o r) acc).length = c
  | [], acc, c, hacc, _ => hacc
  | r :: rs, acc, c, hacc, hrs => by
    have hr : r.length = c := hrs r (List.mem_cons_self r rs)
    rw [List.foldl_cons]
    exact foldl_zipf_length f rs (List.zipWith f acc r) c
      (by rw [List.length_zipWith]; omega) (fun x hx => hrs x (List.mem_cons_of_mem r hx))

theorem foldl_minf_le_start {α β} [LinearOrder α] (g : β → α) :
    ∀ (xs : List β) (a : α), xs.foldl (fun v x => min v (g x)) a ≤ a
  | [], a => le_refl a
  | x :: xs, a =>
    le_trans (foldl_minf_le_start g xs (min a (g x))) (min_le_left a (g x))

theorem foldl_minf_le_mem {α β} [LinearOrder α] (g : β → α) :
    ∀ (xs : List β) (a : α) (x : β), x ∈ xs → xs.foldl (fun v x => min v (g x)) a ≤ g x
  | y :: xs, a, x, hx => by
    rcases List.mem_cons.mp hx with rfl | hx'
    · exact le_trans (foldl_minf_le_start g xs (min a (g x))) (min_le_right a (g x))
    · exact foldl_minf_le_mem g xs (min a (g y)) x hx'

theorem foldl_minf_attained {α β} [LinearOrder α] (g : β → α) :
    ∀ (xs : List β) (a : α), xs.foldl (fun v x => min v (g x)) a = a ∨
      ∃ x ∈ xs, xs.foldl (fun v x => min v (g x)) a = g x
  | [], a => Or.inl rfl
  | y :: xs, a => by
    rcases foldl_minf_attained g xs (min a (g y)) with h | ⟨x, hx, hfx⟩
    · rw [List.foldl_cons, h]
      rcases min_choice a (g y) with h' | h'
      · exact Or.inl h'
      · exact Or.inr ⟨y, List.mem_cons_self y xs, h'⟩
    · exact Or.inr ⟨x, List.mem_cons_of_mem y hx, by rw [List.foldl_cons, hfx]⟩

theorem foldl_maxf_ge_start {α β} [LinearOrder α] (g : β → α) :
    ∀ (xs : List β) (a : α), a ≤ xs.foldl (fun v x => max v (g x)) a
  | [], a => le_refl a
  | x :: xs, a =>
    le_trans (le_max_left a (g x)) (foldl_maxf_ge_start g xs (max a (g x)))

theorem foldl_maxf_ge_mem {α β} [LinearOrder α] (g : β → α) :
    ∀ (xs : List β) (a : α) (x : β), x ∈ xs → g x ≤ xs.foldl (fun v x => max v (g x)) a
  | y :: xs, a, x, hx => by
    rcases List.mem_cons.mp hx with rfl | hx'
    · exact le_trans (le_max_right a (g x)) (foldl_maxf_ge_start g xs (max a (g x)))
    · exact foldl_maxf_ge_mem g xs (max a (g y)) x hx'

theorem foldl_maxf_attained {α β} [LinearOrder α] (g : β → α) :
    ∀ (xs : List β) (a : α), xs.foldl (fun v x => max v (g x)) a = a ∨
      ∃ x ∈ xs, xs.foldl (fun v x => max v (g x)) a = g x
  | [], a => Or.inl rfl
  | y :: xs, a => by
    rcases foldl_maxf_attained g xs (max a (g y)) with h | ⟨x, hx, hfx⟩
    · rw [List.foldl_cons, h]
      rcases max_choice a (g y) with h' | h'
      · exact Or.inl h'
      · exact Or.inr ⟨y, List.mem_cons_self y xs, h'⟩
    · exact Or.inr ⟨x, List.mem_cons_of_mem y hx, by rw [List.foldl_cons, hfx]⟩

/-- A monotone map commutes with a running maximum. -/
theorem foldl_maxf_map {α β γ} [LinearOrder α] [LinearOrder β] {g : α → β} (hg : Monotone g)
    (f : γ → α) :
    ∀ (xs : List γ) (a : α),
      xs.foldl (fun v x => max v (g (f x))) (g a) =
        g (xs.foldl (fun v x => max v (f x)) a)
  | [], a => rfl
  | y :: xs, a => by
    rw [List.foldl_cons, List.foldl_cons, ← Monotone.map_max hg,
      foldl_maxf_map hg f xs (max a (f y))]

/-- The characterisation of `min_along_axis0` on a rectangular matrix. -/
theorem min_along_axis0_spec {pts : Mat} {origin : List ℚ} {c : ℕ}
    (hrect : ∀ row ∈ pts, row.length = c)
    (h : min_along_axis0 pts = some origin) :
    origin.length = c ∧ ∀ j < c,
      origin.getD j 0 = pts.foldl (fun v r => min v (r.getD j 0)) ((pts.headD []).getD j 0) := by
  match pts, h with
  | r0 :: rs, h =>
    have h' : origin = (r0 :: rs).foldl (fun o r => List.zipWith min o r) r0 := by
      have : some ((r0 :: rs).foldl (fun o r => List.zipWith min o r) r0) = some origin := h
      exact (Option.some_inj.mp this).symm
    have hr0 : r0.length = c := hrect r0 (List.mem_cons_self r0 rs)
    constructor
    · rw [h']
      exact foldl_zipf_length min (r0 :: rs) r0 c hr0 hrect
    · intro j hj
      rw [h']
      exact (foldl_zipf_getD min 0 (r0 :: rs) r0 c hr0 hrect j hj).2

/-- The characterisation of `max_along_axis0_i64` on a rectangular matrix. -/
theorem max_along_axis0_i64_spec {bins : List (List ℤ)} {maxbin : List ℤ} {c : ℕ}
    (hrect : ∀ row ∈ bins, row.length = c)
    (h : max_along_axis0_i64 bins = some maxbin) :
    maxbin.length = c ∧ ∀ j < c,
      maxbin.getD j 0 =
        bins.foldl (fun v r => max v (r.getD j 0)) ((bins.headD []).getD j 0) := by
  match bins, h with
  | r0 :: rs, h =>
    have h' : maxbin = (r0 :: rs).foldl (fun o r => List.zipWith max o r) r0 := by
      have : some ((r0 :: rs).foldl (fun o r => List.zipWith max o r) r0) = some maxbin := h
      exact (Option.some_inj.mp this).symm
    have hr0 : r0.length = c := hrect r0 (List.mem_cons_self r0 rs)
    constructor
    · rw [h']
      exact foldl_zipf_length max (r0 :: rs) r0 c hr0 hrect
    · intro j hj
      rw [h']
      exact (foldl_zipf_getD max 0 (r0 :: rs) r0 c hr0 hrect j hj).2

/-! ### The linked-list construction loop -/

theorem binPos_shift : ∀ (bs : List Bin) (i : ℕ) (b : Bin),
    binPos bs i b =
      ((List.range bs.length).filter (fun k => decide (bs.getD k (0, 0, 0) = b))).map
        (fun k => i + k)
  | [], i, b => rfl
  | c :: bs, i, b => by
    rw [binPos, binPos_shift bs (i + 1) b, List.length_cons, List.range_succ_eq_map,
      List.filter_cons, List.filter_map]
    have hps : ((fun k => decide ((c :: bs).getD k (0, 0, 0) = b)) ∘ Nat.succ) =
        (fun k => decide (bs.getD k (0, 0, 0) = b)) := by
      funext k
      rfl
    rw [hps]
    by_cases hc : c = b
    · have hcond : decide ((c :: bs).getD 0 (0, 0, 0) = b) = true := by simp [hc]
      rw [if_pos hcond, if_pos hc, List.map_cons, List.map_map, List.singleton_append,
        Nat.add_zero]
      congr 1
      apply List.map_congr_left
      intro k hk
      simp only [Function.comp_apply]
      omega
    · have hcond : ¬ decide ((c :: bs).getD 0 (0, 0, 0) = b) = true := by simp [hc]
      rw [if_neg hcond, if_neg hc, List.map_map, List.nil_append]
      apply List.map_congr_left
      intro k hk
      simp only [Function.comp_apply]
      omega

/-- The invariant of the prepend loop `buildLL`: afterwards, each bin's
chain is the (reversed) list of positions holding that bin, on top of
whatever chain was there before. -/
theorem buildLL_spec (s : Bin) :
    ∀ (bs : List Bin) (i : ℕ) (fm : FM) (next : List ℤ) (chain : Bin → List ℕ),
      i + bs.length ≤ next.length →
      fmDims fm s →
      (∀ b ∈ bs, binIn b s) →
      (∀ b, binIn b s → Links next (fmGet fm b) (chain b) (-1)) →
      (∀ b, ∀ j ∈ chain b, j < i) →
      fmDims (buildLL bs i fm next).1 s ∧
      (buildLL bs i fm next).2.length = next.length ∧
      (∀ b, binIn b s → Links (buildLL bs i fm next).2 (fmGet (buildLL bs i fm next).1 b)
        ((binPos bs i b).reverse ++ chain b) (-1)) ∧
      (∀ b, binIn b s → ∀ j ∈ (binPos bs i b).reverse ++ chain b, j < i + bs.length)
  | [], i, fm, next, chain, hlen, hdims, _, hchains, hlt => by
    refine ⟨hdims, rfl, ?_, ?_⟩
    · intro b hb
      rw [binPos]
      exact hchains b hb
    · intro b hb j hj
      rw [binPos] at hj
      simp only [List.reverse_nil, List.nil_append] at hj
      have := hlt b j hj
      omega
  | c :: bs, i, fm, next, chain, hlen, hdims, hbs, hchains, hlt => by
    have hc : binIn c s := hbs c (List.mem_cons_self c bs)
    have hilen : i < next.length := by
      simp only [List.length_cons] at hlen
      omega
    have hdims1 : fmDims (fmSet fm c (i : ℤ)) s := fmDims_fmSet hdims hc
    have hcongr : ∀ (v : ℤ) (L : List ℕ), (∀ j ∈ L, j < i) → ∀ (h t : ℤ),
        Links next h L t → Links (next.set i v) h L t := by
      intro v L hL h t hlinks
      refine Links_congr hlinks (by simp) ?_
      intro x hx
      exact getD_set_ne (fun hix => absurd (hix ▸ hL x hx) (lt_irrefl i))
    have hchains1 : ∀ b, binIn b s →
        Links (next.set i (fmGet fm c))
          (fmGet (fmSet fm c (i : ℤ)) b)
          ((if b = c then i :: chain b else chain b)) (-1) := by
      intro b hb
      by_cases hbc : b = c
      · subst hbc
        rw [if_pos rfl, fmGet_fmSet_self hdims hb]
        refine ⟨rfl, by simpa using hilen, ?_⟩
        rw [getD_set_self hilen]
        exact hcongr _ _ (hlt _) _ (-1) (hchains _ hb)
      · rw [if_neg hbc, fmGet_fmSet_ne hdims hc hb hbc]
        exact hcongr _ _ (hlt b) _ (-1) (hchains b hb)
    have hlt1 : ∀ b, ∀ j ∈ (if b = c then i :: chain b else chain b), j < i + 1 := by
      intro b j hj
      by_cases hbc : b = c
      · rw [if_pos hbc] at hj
        rcases List.mem_cons.mp hj with rfl | hj'
        · omega
        · have := hlt b j hj'
          omega
      · rw [if_neg hbc] at hj
        have := hlt b j hj
        omega
    obtain ⟨hdims', hlen', hchain', hbound'⟩ := buildLL_spec s bs (i + 1)
      (fmSet fm c (i : ℤ)) (next.set i (fmGet fm c))
      (fun b => if b = c then i :: chain b else chain b)
      (by simp only [List.length_set, List.length_cons] at hlen ⊢; omega) hdims1
      (fun b hb => hbs b (List.mem_cons_of_mem c hb)) hchains1 hlt1
    rw [buildLL]
    refine ⟨hdims', by rw [hlen']; simp, ?_, ?_⟩
    · intro b hb
      have := hchain' b hb
      rw [binPos, List.reverse_append, List.append_assoc]
      by_cases hbc : c = b
      · rw [if_pos hbc]
        have hrw : (binPos bs (i + 1) b).reverse ++ ([i].reverse ++ chain b) =
            (binPos bs (i + 1) b).reverse ++ (i :: chain b) := by
          simp
        rw [hrw]
        have heq : (if b = c then i :: chain b else chain b) = i :: chain b := by
          rw [if_pos hbc.symm]
        rw [← heq]
        exact this
      · rw [if_neg hbc]
        have heq : (if b = c then i :: chain b else chain b) = chain b := by
          rw [if_neg (fun h => hbc h.symm)]
        simp only [List.reverse_nil, List.nil_append]
        rw [← heq]
        exact this
    · intro b hb j hj
      rw [binPos, List.reverse_append, List.append_assoc] at hj
      have hj' : j ∈ (binPos bs (i + 1) b).reverse ++
          (if b = c then i :: chain b else chain b) := by
        by_cases hbc : c = b
        · rw [if_pos hbc] at hj
          simp only [List.reverse_cons, List.reverse_nil, List.nil_append] at hj
          rw [if_pos hbc.symm]
          simpa using hj
        · rw [if_neg hbc] at hj
          rw [if_neg (fun h => hbc h.symm)]
          simpa using hj
      have := hbound' b hb j hj'
      simp only [List.length_cons]
      omega

/-! ### Facts about the constructed instance -/

theorem getD_map {α β} (f : α → β) {l : List α} {i : ℕ} (d : β) (d₀ : α)
    (h : i < l.length) : (l.map f).getD i d = f (l.getD i d₀) := by
  rw [List.getD_eq_getElem _ _ (by simpa using h), List.getD_eq_getElem _ _ h,
    List.getElem_map]

theorem getD_replicate {α} {v d : α} {k i : ℕ} :
    (List.replicate k v).getD i d = if i < k then v else d := by
  by_cases h : i < k
  · rw [if_pos h, List.getD_eq_getElem _ _ (by simpa using h), List.getElem_replicate]
  · rw [if_neg h, List.getD_eq_default]
    simpa using h

theorem binRow_getD {row origin ws : List ℚ} {j : ℕ} (hj : j < 3) :
    (binRow row origin ws).getD j 0 =
      binCoord (row.getD j 0) (origin.getD j 0) (ws.getD j 0) := by
  unfold binRow
  rw [getD_map _ 0 0 (by simpa using hj)]
  rw [show (List.range 3).getD j 0 = j from by
    rw [List.getD_eq_getElem _ _ (by simpa using hj)]
    simp]

theorem binRow_length (row origin ws : List ℚ) : (binRow row origin ws).length = 3 := by
  simp [binRow]

theorem fmGet_replicate3 {a b c : ℕ} (bn : Bin) :
    fmGet (List.replicate a (List.replicate b (List.replicate c (-1)))) bn = -1 := by
  unfold fmGet
  rw [getD_replicate]
  by_cases h1 : bn.1.toNat < a
  · rw [if_pos h1, getD_replicate]
    by_cases h2 : bn.2.1.toNat < b
    · rw [if_pos h2, getD_replicate]
      by_cases h3 : bn.2.2.toNat < c
      · rw [if_pos h3]
      · rw [if_neg h3]
    · rw [if_neg h2]
      simp
  · rw [if_neg h1]
    simp

theorem binPos_zero (bs : List Bin) (b : Bin) :
    binPos bs 0 b =
      (List.range bs.length).filter (fun k => decide (bs.getD k (0, 0, 0) = b)) := by
  rw [binPos_shift]
  have : (fun k : ℕ => 0 + k) = (fun k : ℕ => k) := by
    funext k
    omega
  rw [this, List.map_id']

/-- The sort order is a permutation of `0, …, n-1`. -/
theorem sortOrder_perm (pts : Mat) (ws origin : List ℚ) (maxbin : List ℤ) :
    (sortOrder pts ws origin maxbin).Perm (List.range pts.length) := by
  unfold sortOrder
  have h1 := List.perm_insertionSort keyLE
    ((List.range pts.length).map (fun i =>
      (flatKey ((pts.map (fun row => binRow row origin ws)).getD i [])
        (maxbin.map (· + 1)), i)))
  have h2 := h1.map (·.2)
  rw [List.map_map] at h2
  have h3 : ((fun x : ℤ × ℕ => x.2) ∘ fun i : ℕ =>
      (flatKey ((pts.map (fun row => binRow row origin ws)).getD i [])
        (maxbin.map (· + 1)), i)) = fun i : ℕ => i := rfl
  rw [h3, List.map_id'] at h2
  exact h2

theorem sortOrder_length (pts : Mat) (ws origin : List ℚ) (maxbin : List ℤ) :
    (sortOrder pts ws origin maxbin).length = pts.length := by
  rw [(sortOrder_perm pts ws origin maxbin).length_eq, List.length_range]

theorem sortOrder_mem {pts : Mat} {ws origin : List ℚ} {maxbin : List ℤ} {i : ℕ} :
    i ∈ sortOrder pts ws origin maxbin ↔ i < pts.length := by
  rw [(sortOrder_perm pts ws origin maxbin).mem_iff, List.mem_range]

theorem sortOrder_nodup (pts : Mat) (ws origin : List ℚ) (maxbin : List ℤ) :
    (sortOrder pts ws origin maxbin).Nodup :=
  (sortOrder_perm pts ws origin maxbin).nodup_iff.mpr (List.nodup_range _)

theorem sortOrder_getD_lt {pts : Mat} {ws origin : List ℚ} {maxbin : List ℤ} {s : ℕ}
    (hs : s < pts.length) : (sortOrder pts ws origin maxbin).getD s 0 < pts.length := by
  rw [← @sortOrder_mem pts ws origin maxbin _]
  have hlen : s < (sortOrder pts ws origin maxbin).length := by
    rw [sortOrder_length]
    exact hs
  rw [List.getD_eq_getElem _ _ hlen]
  exact List.getElem_mem hlen

/-- `binCoord` is non-negative when the origin is a lower bound and the
width is positive. -/
theorem binCoord_nonneg {c o w : ℚ} (hw : 0 < w) (hoc : o ≤ c) : 0 ≤ binCoord c o w := by
  unfold binCoord
  rw [Int.le_floor]
  have h : (0 : ℚ) ≤ (c - o) / w := div_nonneg (by linarith) hw.le
  exact_mod_cast h

/-- Every point's bin triple lies inside the grid whose origin is the
column-wise minimum and whose shape is the column-wise maximum bin index
plus one. -/
theorem binIn_of_minmax {pts : Mat} {ws origin : List ℚ} {maxbin : List ℤ}
    (hrect : ∀ row ∈ pts, row.length = 3)
    (hwpos : ∀ j < 3, 0 < ws.getD j 0)
    (hmin : min_along_axis0 pts = some origin)
    (hmax : max_along_axis0_i64 (pts.map (fun row => binRow row origin ws)) = some maxbin)
    {oi : ℕ} (hoi : oi < pts.length) :
    binIn (binTriple ((pts.map (fun row => binRow row origin ws)).getD oi []))
      (binTriple (maxbin.map (· + 1))) := by
  have horig := min_along_axis0_spec hrect hmin
  have hBIrect : ∀ r ∈ pts.map (fun row => binRow row origin ws), r.length = 3 := by
    intro r hr
    rcases List.mem_map.mp hr with ⟨row, _, rfl⟩
    exact binRow_length row origin ws
  have hmb := max_along_axis0_i64_spec hBIrect hmax
  have hBIlen : (pts.map (fun row => binRow row origin ws)).length = pts.length :=
    List.length_map _ _
  have hBIget : (pts.map (fun row => binRow row origin ws)).getD oi [] =
      binRow (pts.getD oi []) origin ws := getD_map _ [] [] hoi
  have hrowmem : pts.getD oi [] ∈ pts := getD_mem_of_lt pts oi [] hoi
  have key : ∀ j < 3,
      0 ≤ ((pts.map (fun row => binRow row origin ws)).getD oi []).getD j 0 ∧
      ((pts.map (fun row => binRow row origin ws)).getD oi []).getD j 0 <
        (maxbin.map (· + 1)).getD j 0 := by
    intro j hj
    have hshape : (maxbin.map (· + 1)).getD j 0 = maxbin.getD j 0 + 1 :=
      getD_map _ 0 0 (by rw [hmb.1]; omega)
    constructor
    · rw [hBIget, binRow_getD hj]
      refine binCoord_nonneg (hwpos j hj) ?_
      rw [horig.2 j hj]
      exact foldl_minf_le_mem (fun r : List ℚ => r.getD j 0) pts _ _ hrowmem
    · have hmem : (pts.map (fun row => binRow row origin ws)).getD oi [] ∈
          pts.map (fun row => binRow row origin ws) :=
        getD_mem_of_lt _ oi [] (by rw [hBIlen]; exact hoi)
      have hle : ((pts.map (fun row => binRow row origin ws)).getD oi []).getD j 0 ≤
          maxbin.getD j 0 := by
        rw [hmb.2 j hj]
        exact foldl_maxf_ge_mem (fun r : List ℤ => r.getD j 0) _ _ _ hmem
      rw [hshape]
      omega
  rcases key 0 (by omega) with ⟨k00, k01⟩
  rcases key 1 (by omega) with ⟨k10, k11⟩
  rcases key 2 (by omega) with ⟨k20, k21⟩
  exact ⟨k00, k01, k10, k11, k20, k21⟩

/-- On the constructed instance, the bin of sorted point `s` is the
precomputed bin triple of the original row that position came from. -/
theorem binOfS_buildPB {pts : Mat} {ws origin : List ℚ} {maxbin : List ℤ} {s : ℕ}
    (hs : s < pts.length) :
    binOfS (buildPB pts ws origin maxbin) s =
      binTriple ((pts.map (fun row => binRow row origin ws)).getD
        ((sortOrder pts ws origin maxbin).getD s 0) []) := by
  have hP : (buildPB pts ws origin maxbin).points =
      (sortOrder pts ws origin maxbin).map (fun oi => pts.getD oi []) := rfl
  have ho : (buildPB pts ws origin maxbin).origin = origin := rfl
  have hw : (buildPB pts ws origin maxbin).bin_widths = ws := rfl
  unfold binOfS
  rw [hP, ho, hw, getD_map (fun oi => pts.getD oi []) [] 0
    (by rw [sortOrder_length]; exact hs),
    getD_map (fun row => binRow row origin ws) [] [] (sortOrder_getD_lt hs)]

/-- The record built by the success branch of `PointBin3D::new` satisfies
the state invariant. -/
theorem buildPB_SInv {pts : Mat} {ws origin : List ℚ} {maxbin : List ℤ}
    (hrect : ∀ row ∈ pts, row.length = 3)
    (hwpos : ∀ j < 3, 0 < ws.getD j 0)
    (hmin : min_along_axis0 pts = some origin)
    (hmax : max_along_axis0_i64 (pts.map (fun row => binRow row origin ws)) = some maxbin) :
    SInv (buildPB pts ws origin maxbin) := by
  have hplen : (buildPB pts ws origin maxbin).points.length = pts.length := by
    have h : (buildPB pts ws origin maxbin).points =
        (sortOrder pts ws origin maxbin).map (fun oi => pts.getD oi []) := rfl
    rw [h, List.length_map, sortOrder_length]
  have hnlen : (List.replicate pts.length (-1 : ℤ)).length = pts.length := by simp
  have hsblen : ((sortOrder pts ws origin maxbin).map
      (fun oi => binTriple ((pts.map (fun row => binRow row origin ws)).getD oi []))).length
      = pts.length := by
    rw [List.length_map, sortOrder_length]
  have hfm0dims : fmDims
      (List.replicate ((maxbin.map (· + 1)).getD 0 0).toNat
        (List.replicate ((maxbin.map (· + 1)).getD 1 0).toNat
          (List.replicate ((maxbin.map (· + 1)).getD 2 0).toNat (-1))))
      (binTriple (maxbin.map (· + 1))) := by
    refine ⟨by simp [binTriple], ?_⟩
    intro pl hpl
    rw [List.eq_of_mem_replicate hpl]
    refine ⟨by simp [binTriple], ?_⟩
    intro r hr
    rw [List.eq_of_mem_replicate hr]
    simp [binTriple]
  have hsbmem : ∀ b ∈ (sortOrder pts ws origin maxbin).map
      (fun oi => binTriple ((pts.map (fun row => binRow row origin ws)).getD oi [])),
      binIn b (binTriple (maxbin.map (· + 1))) := by
    intro b hb
    rcases List.mem_map.mp hb with ⟨oi, hoi, rfl⟩
    exact binIn_of_minmax hrect hwpos hmin hmax (sortOrder_mem.mp hoi)
  have hinit : ∀ b, binIn b (binTriple (maxbin.map (· + 1))) →
      Links (List.replicate pts.length (-1 : ℤ))
        (fmGet (List.replicate ((maxbin.map (· + 1)).getD 0 0).toNat
          (List.replicate ((maxbin.map (· + 1)).getD 1 0).toNat
            (List.replicate ((maxbin.map (· + 1)).getD 2 0).toNat (-1)))) b)
        ([] : List ℕ) (-1) := by
    intro b _
    rw [fmGet_replicate3]
    exact rfl
  obtain ⟨hbdims, hblen, hbchain, _⟩ := buildLL_spec (binTriple (maxbin.map (· + 1)))
    ((sortOrder pts ws origin maxbin).map
      (fun oi => binTriple ((pts.map (fun row => binRow row origin ws)).getD oi [])))
    0
    (List.replicate ((maxbin.map (· + 1)).getD 0 0).toNat
      (List.replicate ((maxbin.map (· + 1)).getD 1 0).toNat
        (List.replicate ((maxbin.map (· + 1)).getD 2 0).toNat (-1))))
    (List.replicate pts.length (-1 : ℤ))
    (fun _ => [])
    (by rw [hsblen, hnlen]; omega)
    hfm0dims hsbmem hinit
    (by intro b j hj; simp at hj)
  have hlive : ∀ b, liveL (buildPB pts ws origin maxbin) [] b =
      (binPos ((sortOrder pts ws origin maxbin).map
        (fun oi => binTriple ((pts.map (fun row => binRow row origin ws)).getD oi [])))
        0 b).reverse := by
    intro b
    unfold liveL
    rw [hplen, binPos_zero, hsblen]
    congr 1
    apply List.filter_congr
    intro i hi
    rw [List.mem_range] at hi
    have h1 : binOfS (buildPB pts ws origin maxbin) i =
        ((sortOrder pts ws origin maxbin).map
          (fun oi => binTriple ((pts.map (fun row => binRow row origin ws)).getD oi []))).getD
          i (0, 0, 0) := by
      rw [binOfS_buildPB hi,
        getD_map _ (0, 0, 0) 0 (by rw [sortOrder_length]; exact hi)]
    simp [h1]
  have hfl : foundL (buildPB pts ws origin maxbin) = [] := rfl
  refine ⟨?_, ?_, ?_, ?_, ?_, ?_, ?_, ?_, ?_, ?_, ?_, ?_, ?_, ?_⟩
  · rw [hplen]
    have h := hblen
    rw [hnlen] at h
    exact h
  · rw [hplen]
    exact hnlen
  · rw [hplen]
    show ((sortOrder pts ws origin maxbin).map (fun oi : ℕ => (oi : ℤ))).length = pts.length
    rw [List.length_map, sortOrder_length]
  · exact Nat.zero_le _
  · intro x hx
    have hx' : x ∈ ([] : List ℤ) := hx
    cases hx'
  · rw [hfl]
    exact List.nodup_nil
  · intro i hi
    rw [hfl] at hi
    cases hi
  · exact hbdims
  · intro i hi
    rw [hplen] at hi
    rw [binOfS_buildPB hi]
    exact binIn_of_minmax hrect hwpos hmin hmax (sortOrder_getD_lt hi)
  · intro b hb
    have h := hbchain b hb
    rw [List.append_nil] at h
    rw [hfl, hlive b]
    exact h
  · exact hbdims
  · rw [hplen]
    have h := hblen
    rw [hnlen] at h
    exact h
  · intro b hb
    have h := hbchain b hb
    rw [List.append_nil] at h
    rw [hlive b]
    exact h
  · exact hwpos

/-- Destructuring a successful `new`: both dimension checks passed, both
reductions succeeded, and the result is `buildPB` on their values. -/
theorem new_elim {ncols : ℕ} {pts : Mat} {ws : List ℚ} {pb : PointBin3D}
    (h : PointBin3D.new ncols pts ws = .ok pb) :
    ncols = 3 ∧ ws.length = 3 ∧ ∃ origin maxbin,
      min_along_axis0 pts = some origin ∧
      max_along_axis0_i64 (pts.map (fun row => binRow row origin ws)) = some maxbin ∧
      pb = buildPB pts ws origin maxbin := by
  unfold PointBin3D.new at h
  split at h
  · cases h
  next hnc =>
  split at h
  · cases h
  next hlen =>
  split at h
  · cases h
  next origin hmin =>
  split at h
  · cases h
  next maxbin hmax =>
  cases h
  exact ⟨by omega, by omega, origin, maxbin, hmin, hmax, rfl⟩

/-- A successful construction on a rectangular 3-column point set with
positive widths yields a state satisfying the invariant, with nothing
found yet. -/
theorem new_SInv {pts : Mat} {ws : List ℚ} {pb : PointBin3D}
    (hrect : ∀ row ∈ pts, row.length = 3)
    (hwpos : ∀ j < 3, 0 < ws.getD j 0)
    (h : PointBin3D.new 3 pts ws = .ok pb) :
    SInv pb ∧ foundL pb = [] ∧ pb.found_count = 0 := by
  obtain ⟨-, hws3, origin, maxbin, hmin, hmax, rfl⟩ := new_elim h
  exact ⟨buildPB_SInv hrect hwpos hmin hmax, rfl, rfl⟩

/-! ### Bridging lemmas for the claims -/

/-- The characterisation of `max_along_axis0` on a rectangular matrix. -/
theorem max_along_axis0_spec {pts : Mat} {maxc : List ℚ} {c : ℕ}
    (hrect : ∀ row ∈ pts, row.length = c)
    (h : max_along_axis0 pts = some maxc) :
    maxc.length = c ∧ ∀ j < c,
      maxc.getD j 0 = pts.foldl (fun v r => max v (r.getD j 0)) ((pts.headD []).getD j 0) := by
  match pts, h with
  | r0 :: rs, h =>
    have h' : maxc = (r0 :: rs).foldl (fun o r => List.zipWith max o r) r0 := by
      have h2 : some ((r0 :: rs).foldl (fun o r => List.zipWith max o r) r0) = some maxc := h
      exact (Option.some_inj.mp h2).symm
    have hr0 : r0.length = c := hrect r0 (List.mem_cons_self r0 rs)
    constructor
    · rw [h']
      exact foldl_zipf_length max (r0 :: rs) r0 c hr0 hrect
    · intro j hj
      rw [h']
      exact (foldl_zipf_getD max 0 (r0 :: rs) r0 c hr0 hrect j hj).2

/-- The Euclidean comparison of the specification reduces to the squared
comparison the code performs, for a non-negative radius. -/
theorem euclidDist_le_iff {p q : List ℚ} {r : ℚ} (hr : 0 ≤ r) :
    euclidDist p q ≤ (r : ℝ) ↔ distSq p q ≤ r * r := by
  unfold euclidDist
  rw [Real.sqrt_le_left (by exact_mod_cast hr), sq]
  constructor
  · intro h
    exact_mod_cast h
  · intro h
    exact_mod_cast h

/-- Frame-equal states visit the same bins. -/
theorem visitBins_eq_of_frame {pb pb' : PointBin3D} (hf : SameFrame pb pb')
    (q : List ℚ) (r : ℚ) : visitBins pb' q r = visitBins pb q r := by
  unfold visitBins loBin hiBin
  rw [hf.ho, hf.hw, hf.hsh]

/-- Positions of a duplicate-free list are recoverable from entries. -/
theorem nodup_getD_inj {l : List ℕ} (h : l.Nodup) {s t : ℕ} (hs : s < l.length)
    (ht : t < l.length) (he : l.getD s 0 = l.getD t 0) : s = t := by
  rw [List.getD_eq_getElem _ _ hs, List.getD_eq_getElem _ _ ht] at he
  exact (List.Nodup.getElem_inj_iff h).mp he

/-- Every original index below `n` occurs somewhere in the sort order. -/
theorem sortOrder_surj {pts : Mat} {ws origin : List ℚ} {maxbin : List ℤ} {oi : ℕ}
    (h : oi < pts.length) :
    ∃ s, s < pts.length ∧ (sortOrder pts ws origin maxbin).getD s 0 = oi := by
  obtain ⟨s, hs, hgs⟩ := List.getElem_of_mem (sortOrder_mem.mpr h)
  rw [sortOrder_length] at hs
  refine ⟨s, hs, ?_⟩
  rw [List.getD_eq_getElem _ _ (by rw [sortOrder_length]; exact hs)]
  exact hgs

theorem buildPB_points_getD {pts : Mat} {ws origin : List ℚ} {maxbin : List ℤ} {s : ℕ}
    (hs : s < pts.length) :
    (buildPB pts ws origin maxbin).points.getD s [] =
      pts.getD ((sortOrder pts ws origin maxbin).getD s 0) [] := by
  have hP : (buildPB pts ws origin maxbin).points =
      (sortOrder pts ws origin maxbin).map (fun oi => pts.getD oi []) := rfl
  rw [hP, getD_map (fun oi => pts.getD oi []) [] 0 (by rw [sortOrder_length]; exact hs)]

theorem buildPB_original_indices_getD {pts : Mat} {ws origin : List ℚ} {maxbin : List ℤ}
    {s : ℕ} (hs : s < pts.length) :
    (buildPB pts ws origin maxbin).original_indices.getD s 0 =
      (((sortOrder pts ws origin maxbin).getD s 0 : ℕ) : ℤ) := by
  have hO : (buildPB pts ws origin maxbin).original_indices =
      (sortOrder pts ws origin maxbin).map (fun oi : ℕ => (oi : ℤ)) := rfl
  rw [hO, getD_map (fun oi : ℕ => (oi : ℤ)) 0 0 (by rw [sortOrder_length]; exact hs)]

/-- Members of the found list of a valid state are sorted indices. -/
theorem foundL_lt {pb : PointBin3D} (hinv : SInv pb) :
    ∀ s ∈ foundL pb, s < pb.points.length := by
  intro s hs
  unfold foundL at hs
  rcases List.mem_map.mp hs with ⟨x, hx, rfl⟩
  exact (hinv.hfound_lt x hx).2

/-- Inserting an element whose second component is larger than all present
ones keeps the stability invariant: on equal keys, second components
increase along the list. -/
theorem pairwise_orderedInsert (a : ℤ × ℕ) :
    ∀ l : List (ℤ × ℕ),
      l.Pairwise (fun x y => x.1 = y.1 → x.2 < y.2) →
      (∀ y ∈ l, a.2 < y.2) →
      (l.orderedInsert keyLE a).Pairwise (fun x y => x.1 = y.1 → x.2 < y.2)
  | [], _, _ => by simp
  | b :: l, hl, ha => by
    rw [List.orderedInsert]
    by_cases hab : keyLE a b
    · rw [if_pos hab]
      refine List.pairwise_cons.mpr ⟨?_, hl⟩
      intro y hy _
      exact ha y hy
    · rw [if_neg hab]
      obtain ⟨hb, hl'⟩ := List.pairwise_cons.mp hl
      refine List.pairwise_cons.mpr ⟨?_, pairwise_orderedInsert a l hl'
        (fun y hy => ha y (List.mem_cons_of_mem b hy))⟩
      intro y hy hkey
      rcases (List.mem_orderedInsert keyLE).mp hy with rfl | hyl
      · exact absurd (le_of_eq hkey.symm) hab
      · exact hb y hyl hkey

/-- Insertion sort by key is stable: it preserves the relative order of the
strictly increasing second components on equal keys. -/
theorem pairwise_insertionSort :
    ∀ l : List (ℤ × ℕ), l.Pairwise (fun x y => x.2 < y.2) →
      (l.insertionSort keyLE).Pairwise (fun x y => x.1 = y.1 → x.2 < y.2)
  | [], _ => List.Pairwise.nil
  | a :: l, hl => by
    rw [List.insertionSort]
    obtain ⟨ha, hl'⟩ := List.pairwise_cons.mp hl
    refine pairwise_orderedInsert a _ (pairwise_insertionSort l hl') ?_
    intro y hy
    exact ha y ((List.perm_insertionSort keyLE l).mem_iff.mp hy)

/-- Positional stability for a list of `(key, index)` pairs with the indices
`0, …, n-1` in order: after sorting by key, equal keys keep increasing
indices. -/
theorem insertionSort_key_stable (k : ℕ → ℤ) (n : ℕ) {S : List (ℤ × ℕ)}
    (hSdef : S = ((List.range n).map (fun i => (k i, i))).insertionSort keyLE)
    {s t : ℕ} (hst : s < t) (ht : t < n)
    (hkey : k (S.getD s (0, 0)).2 = k (S.getD t (0, 0)).2) :
    (S.getD s (0, 0)).2 < (S.getD t (0, 0)).2 := by
  have hSlen : S.length = n := by
    rw [hSdef, List.length_insertionSort, List.length_map, List.length_range]
  have hkp : ((List.range n).map (fun i => (k i, i))).Pairwise
      (fun x y : ℤ × ℕ => x.2 < y.2) := by
    rw [List.pairwise_map]
    exact List.pairwise_lt_range n
  have hP : S.Pairwise (fun x y : ℤ × ℕ => x.1 = y.1 → x.2 < y.2) := by
    rw [hSdef]
    exact pairwise_insertionSort _ hkp
  have hform : ∀ x ∈ S, x.1 = k x.2 := by
    intro x hx
    rw [hSdef] at hx
    have hx' := (List.perm_insertionSort keyLE _).mem_iff.mp hx
    rcases List.mem_map.mp hx' with ⟨i, _, rfl⟩
    rfl
  have hs' : s < S.length := by omega
  have ht' : t < S.length := by omega
  have hpos := List.pairwise_iff_getElem.mp hP s t hs' ht' hst
  rw [List.getD_eq_getElem _ _ hs', List.getD_eq_getElem _ _ ht'] at hkey ⊢
  apply hpos
  rw [hform S[s] (List.getElem_mem hs'), hform S[t] (List.getElem_mem ht')]
  exact hkey

theorem sortOrder_getD_eq {pts : Mat} {ws origin : List ℚ} {maxbin : List ℤ} {s : ℕ}
    (hs : s < pts.length) :
    (sortOrder pts ws origin maxbin).getD s 0 =
      ((((List.range pts.length).map (fun i =>
        (flatKey ((pts.map (fun row => binRow row origin ws)).getD i [])
          (maxbin.map (· + 1)), i))).insertionSort keyLE).getD s (0, 0)).2 := by
  have h : sortOrder pts ws origin maxbin =
      (((List.range pts.length).map (fun i =>
        (flatKey ((pts.map (fun row => binRow row origin ws)).getD i [])
          (maxbin.map (· + 1)), i))).insertionSort keyLE).map (·.2) := rfl
  rw [h, getD_map (·.2) 0 (0, 0)
    (by rw [List.length_insertionSort, List.length_map, List.length_range]; exact hs)]

/-- Stability of the sort order, in terms of positions and flattened keys. -/
theorem sortOrder_stable {pts : Mat} {ws origin : List ℚ} {maxbin : List ℤ} {s t : ℕ}
    (hst : s < t) (ht : t < pts.length)
    (hkey : flatKey ((pts.map (fun row => binRow row origin ws)).getD
          ((sortOrder pts ws origin maxbin).getD s 0) []) (maxbin.map (· + 1)) =
        flatKey ((pts.map (fun row => binRow row origin ws)).getD
          ((sortOrder pts ws origin maxbin).getD t 0) []) (maxbin.map (· + 1))) :
    (sortOrder pts ws origin maxbin).getD s 0 < (sortOrder pts ws origin maxbin).getD t 0 := by
  rw [sortOrder_getD_eq (lt_trans hst ht), sortOrder_getD_eq ht] at hkey ⊢
  exact insertionSort_key_stable (fun i =>
    flatKey ((pts.map (fun row => binRow row origin ws)).getD i []) (maxbin.map (· + 1)))
    pts.length rfl hst ht hkey

/-- `binCoord` is monotone in the coordinate when the width is positive. -/
theorem binCoord_mono {o w : ℚ} (hw : 0 < w) {a b : ℚ} (hab : a ≤ b) :
    binCoord a o w ≤ binCoord b o w := by
  unfold binCoord
  exact Int.floor_le_floor ((div_le_div_iff_of_pos_right hw).mpr (by linarith))

theorem pairwise_flatMap_of {α β} {l : List α} {f : α → List β} {S : β → β → Prop}
    (h1 : ∀ a ∈ l, (f a).Pairwise S)
    (h2 : l.Pairwise (fun a b => ∀ x ∈ f a, ∀ y ∈ f b, S x y)) :
    (l.flatMap f).Pairwise S := by
  induction l with
  | nil => exact List.Pairwise.nil
  | cons a l ih =>
    rw [List.flatMap_cons]
    apply List.pairwise_append.mpr
    refine ⟨h1 a (List.mem_cons_self a l),
      ih (fun b hb => h1 b (List.mem_cons_of_mem a hb)) (List.pairwise_cons.mp h2).2, ?_⟩
    intro x hx y hy
    rcases List.mem_flatMap.mp hy with ⟨b, hb, hyb⟩
    exact (List.pairwise_cons.mp h2).1 b hb x hx y hyb

theorem intRange_pairwise (lo hi : ℤ) : (intRange lo hi).Pairwise (· < ·) := by
  unfold intRange
  rw [List.pairwise_map]
  exact (List.pairwise_lt_range _).imp (fun h => by omega)

/-- The bins of one search are visited in strictly increasing row-major
order: axis 0 outermost, then axis 1, then axis 2. -/
theorem visitBins_pairwise (pb : PointBin3D) (q : List ℚ) (r : ℚ) :
    (visitBins pb q r).Pairwise binLex := by
  unfold visitBins
  apply pairwise_flatMap_of
  · intro ix _
    apply pairwise_flatMap_of
    · intro iy _
      rw [List.pairwise_map]
      exact (intRange_pairwise _ _).imp (fun h => Or.inr ⟨rfl, Or.inr ⟨rfl, h⟩⟩)
    · refine (intRange_pairwise _ _).imp ?_
      intro a b hab x hx y hy
      rcases List.mem_map.mp hx with ⟨za, _, rfl⟩
      rcases List.mem_map.mp hy with ⟨zb, _, rfl⟩
      exact Or.inr ⟨rfl, Or.inl hab⟩
  · refine (intRange_pairwise _ _).imp ?_
    intro a b hab x hx y hy
    rcases List.mem_flatMap.mp hx with ⟨ya, _, hxa⟩
    rcases List.mem_flatMap.mp hy with ⟨yb, _, hyb⟩
    rcases List.mem_map.mp hxa with ⟨za, _, rfl⟩
    rcases List.mem_map.mp hyb with ⟨zb, _, rfl⟩
    exact Or.inl hab

/-- Within one bin, the matched entries are recorded in strictly decreasing
sorted-index order (chain order, the reverse of construction order). -/
theorem nearFilter_liveL_pairwise (pb : PointBin3D) (q : List ℚ) (rsq : ℚ)
    (F : List ℕ) (b : Bin) :
    (nearFilter pb.points q rsq (liveL pb F b)).Pairwise (fun x y => y < x) := by
  unfold nearFilter
  exact (liveL_pairwise pb F b).filter _

theorem buildPB_points_length (pts : Mat) (ws origin : List ℚ) (maxbin : List ℤ) :
    (buildPB pts ws origin maxbin).points.length = pts.length := by
  have h : (buildPB pts ws origin maxbin).points =
      (sortOrder pts ws origin maxbin).map (fun oi => pts.getD oi []) := rfl
  rw [h, List.length_map, sortOrder_length]

/-! ### The claims -/

/-- C9: constructing with an empty point set (a 0-row matrix whose column
count is 3) and a valid length-3 `bin_widths` does not return an instance:
`min_along_axis0` reads row 0 unconditionally, so the call fails with an
out-of-bounds condition, not `InvalidDimension`; `n ≥ 1` is an undocumented
precondition of construction. -/
theorem claim_C9 (ws : List ℚ) (hws : ws.length = 3) :
    PointBin3D.new 3 ([] : Mat) ws = .error .indexOutOfBounds ∧
    PointBin3D.new 3 ([] : Mat) ws ≠ .error .invalidDimension ∧
    ∀ pb, PointBin3D.new 3 ([] : Mat) ws ≠ .ok pb := by
  have h : PointBin3D.new 3 ([] : Mat) ws = .error .indexOutOfBounds := by
    unfold PointBin3D.new
    rw [if_neg (by omega), if_neg (by omega)]
    rfl
  refine ⟨h, ?_, ?_⟩
  · rw [h]
    intro hcon
    injection hcon with h2
    cases h2
  · intro pb hcon
    rw [h] at hcon
    exact Except.noConfusion hcon

/-- C9 witness: the statement at `bin_widths = [1, 1, 1]`. -/
theorem claim_C9_witness :
    ([1, 1, 1] : List ℚ).length = 3 ∧
    (PointBin3D.new 3 ([] : Mat) [1, 1, 1] = .error .indexOutOfBounds ∧
     PointBin3D.new 3 ([] : Mat) [1, 1, 1] ≠ .error .invalidDimension ∧
     ∀ pb, PointBin3D.new 3 ([] : Mat) [1, 1, 1] ≠ .ok pb) :=
  ⟨rfl, claim_C9 [1, 1, 1] rfl⟩

/-- C5 (amended): `new` fails with `InvalidDimension` exactly when the
column count is not 3 or `bin_widths` does not have exactly 3 entries;
`radius_search` fails with `InvalidDimension` exactly when the query does
not have exactly 3 entries (and, from a valid state, succeeds otherwise);
on failure no state is produced; and — the amendment — freedom from other
error conditions additionally requires a non-empty point set (the original
"no other error conditions for any input meeting the documented
preconditions" is refuted by the `n = 0` counterexample). -/
theorem claim_C5 :
    (∀ (ncols : ℕ) (pts : Mat) (ws : List ℚ),
      PointBin3D.new ncols pts ws = .error .invalidDimension ↔
        ncols ≠ 3 ∨ ws.length ≠ 3) ∧
    (∀ (pts : Mat) (ws : List ℚ), pts ≠ [] → ws.length = 3 →
      ∃ pb, PointBin3D.new 3 pts ws = .ok pb) ∧
    (∀ (pb : PointBin3D) (q : List ℚ) (r : ℚ),
      pb.radius_search q r = .error .invalidDimension ↔ q.length ≠ 3) ∧
    (∀ (pb : PointBin3D) (q : List ℚ) (r : ℚ), SInv pb → q.length = 3 →
      ∃ pb', pb.radius_search q r = .ok pb') := by
  refine ⟨?_, ?_, ?_, ?_⟩
  · intro ncols pts ws
    constructor
    · intro h
      by_contra hcon
      push_neg at hcon
      obtain ⟨h3, hw3⟩ := hcon
      unfold PointBin3D.new at h
      rw [if_neg (by omega), if_neg (by omega)] at h
      split at h
      · injection h with h2
        cases h2
      next origin hmin =>
      split at h
      · injection h with h2
        cases h2
      · exact Except.noConfusion h
    · intro h
      unfold PointBin3D.new
      rcases h with h | h
      · rw [if_pos h]
      · by_cases hnc : ncols ≠ 3
        · rw [if_pos hnc]
        · rw [if_neg hnc, if_pos h]
  · intro pts ws hne hws
    match pts, hne with
    | r0 :: rs, _ =>
      unfold PointBin3D.new
      rw [if_neg (by omega), if_neg (by omega)]
      exact ⟨_, rfl⟩
  · intro pb q r
    constructor
    · intro h hq3
      unfold PointBin3D.radius_search at h
      rw [if_neg (fun hc => hc hq3)] at h
      split at h
      · exact Except.noConfusion h
      · injection h with h2
        cases h2
    · intro hq3
      unfold PointBin3D.radius_search
      rw [if_pos hq3]
  · intro pb q r hinv hq
    obtain ⟨pb', hrun, _, _, _, _⟩ := radius_search_spec hinv q r hq
    exact ⟨pb', hrun⟩

/-- C5 counterexample: the 0-row, 3-column matrix with
`bin_widths = [1, 1, 1]` meets every documented precondition (3 columns,
3 positive widths), yet construction fails — with an out-of-bounds
condition rather than `InvalidDimension` — refuting "there are no other
error conditions for any input meeting the documented preconditions". -/
theorem claim_C5_counterexample :
    (∀ row ∈ ([] : Mat), row.length = 3) ∧
    (∀ j < 3, 0 < ([1, 1, 1] : List ℚ).getD j 0) ∧
    ([1, 1, 1] : List ℚ).length = 3 ∧
    PointBin3D.new 3 ([] : Mat) [1, 1, 1] = .error .indexOutOfBounds ∧
    ∀ pb, PointBin3D.new 3 ([] : Mat) [1, 1, 1] ≠ .ok pb := by
  refine ⟨by simp, ?_, rfl, rfl, ?_⟩
  · intro j hj
    interval_cases j <;> with_unfolding_all decide
  · intro pb hcon
    rw [show PointBin3D.new 3 ([] : Mat) [1, 1, 1] =
      .error .indexOutOfBounds from rfl] at hcon
    exact Except.noConfusion hcon

/-- C2: at every reachable state of a validly constructed instance,
`found_count` equals the number of entries `found_indices()` returns and
never exceeds the number of points; a successful search never decreases
it, and reset sets it to 0. -/
theorem claim_C2 {pts : Mat} {ws : List ℚ} {pb0 pb : PointBin3D}
    (hrect : ∀ row ∈ pts, row.length = 3)
    (hwpos : ∀ j < 3, 0 < ws.getD j 0)
    (hnew : PointBin3D.new 3 pts ws = .ok pb0)
    (hreach : Reach pb0 pb) :
    pb.found_indices.length = pb.found_count ∧
    pb.found_count ≤ pts.length ∧
    (∀ (q : List ℚ) (r : ℚ) (pb' : PointBin3D),
      pb.radius_search q r = .ok pb' → pb.found_count ≤ pb'.found_count) ∧
    pb.reset.found_count = 0 := by
  obtain ⟨hinv0, -, -⟩ := new_SInv hrect hwpos hnew
  obtain ⟨hinv, hframe⟩ := Reach_SInv hinv0 hreach
  obtain ⟨-, hws3, origin, maxbin, hmin, hmax, hpb0⟩ := new_elim hnew
  have hplen : pb.points.length = pts.length := by
    rw [hframe.hp, hpb0, buildPB_points_length]
  refine ⟨?_, ?_, ?_, rfl⟩
  · unfold PointBin3D.found_indices
    rw [List.length_map, List.length_range]
  · rw [← hplen]
    exact hinv.hcount
  · intro q r pb' hrun
    by_cases hq : q.length = 3
    · obtain ⟨pb'', hrun', _, _, _, hmono⟩ := radius_search_spec hinv q r hq
      rw [hrun] at hrun'
      have hpe : pb' = pb'' := by injection hrun'
      subst hpe
      exact hmono
    · rw [PointBin3D.radius_search, if_pos hq] at hrun
      exact Except.noConfusion hrun

/-- C4: across any sequence of searches and resets on a validly constructed
instance, the eight construction-time fields never change; and `reset`
leaves even the result buffer untouched, mutating only `first_member`,
`next_member` and `found_count`. -/
theorem claim_C4 {pts : Mat} {ws : List ℚ} {pb0 pb : PointBin3D}
    (hrect : ∀ row ∈ pts, row.length = 3)
    (hwpos : ∀ j < 3, 0 < ws.getD j 0)
    (hnew : PointBin3D.new 3 pts ws = .ok pb0)
    (hreach : Reach pb0 pb) :
    SameFrame pb0 pb ∧
    pb.reset.original_points = pb.original_points ∧
    pb.reset.points = pb.points ∧
    pb.reset.bin_widths = pb.bin_widths ∧
    pb.reset.origin = pb.origin ∧
    pb.reset.original_indices = pb.original_indices ∧
    pb.reset.bin_shape = pb.bin_shape ∧
    pb.reset.original_first_member = pb.original_first_member ∧
    pb.reset.original_next_member = pb.original_next_member ∧
    pb.reset.found_indices_buffer = pb.found_indices_buffer ∧
    pb.reset.first_member = pb.original_first_member ∧
    pb.reset.next_member = pb.original_next_member ∧
    pb.reset.found_count = 0 := by
  obtain ⟨hinv0, -, -⟩ := new_SInv hrect hwpos hnew
  exact ⟨(Reach_SInv hinv0 hreach).2, rfl, rfl, rfl, rfl, rfl, rfl, rfl, rfl, rfl,
    rfl, rfl, rfl⟩

/-- C10: at every reachable state of a validly constructed instance, every
`next_member` entry is a sentinel (`-1` end of chain, `-2` removed) or a
valid strictly smaller sorted index; every bin chain is duplicate-free of
length at most `n`; and the chain-traversal loop terminates — every search
with a 3-entry query returns. -/
theorem claim_C10 {pts : Mat} {ws : List ℚ} {pb0 pb : PointBin3D}
    (hrect : ∀ row ∈ pts, row.length = 3)
    (hwpos : ∀ j < 3, 0 < ws.getD j 0)
    (hnew : PointBin3D.new 3 pts ws = .ok pb0)
    (hreach : Reach pb0 pb) :
    (∀ i : ℕ, i < pb.points.length →
      pb.next_member.getD i 0 = -1 ∨ pb.next_member.getD i 0 = -2 ∨
        (0 ≤ pb.next_member.getD i 0 ∧ pb.next_member.getD i 0 < (i : ℤ))) ∧
    (∀ b : Bin, binIn b (shapeTriple pb) → ∃ L : List ℕ,
      Links pb.next_member (fmGet pb.first_member b) L (-1) ∧ L.Nodup ∧
        L.length ≤ pb.points.length) ∧
    (∀ (q : List ℚ) (r : ℚ), q.length = 3 →
      ∃ pb', pb.radius_search q r = .ok pb') := by
  obtain ⟨hinv0, -, -⟩ := new_SInv hrect hwpos hnew
  obtain ⟨hinv, -⟩ := Reach_SInv hinv0 hreach
  refine ⟨?_, ?_, ?_⟩
  · intro i hi
    by_cases hF : i ∈ foundL pb
    · exact Or.inr (Or.inl (hinv.htomb i hF))
    · have hlive : i ∈ liveL pb (foundL pb) (binOfS pb i) :=
        mem_liveL.mpr ⟨hi, rfl, hF⟩
      have hchain := hinv.hchain (binOfS pb i) (hinv.hbin_in i hi)
      have hdec := (liveL_pairwise pb (foundL pb) (binOfS pb i)).chain'
      rcases Links_getD_of_decr hchain hdec i hlive with h | h
      · exact Or.inl h
      · exact Or.inr (Or.inr h)
  · intro b hb
    exact ⟨liveL pb (foundL pb) b, hinv.hchain b hb,
      liveL_nodup pb (foundL pb) b, liveL_length_le pb (foundL pb) b⟩
  · intro q r hq
    obtain ⟨pb', hrun, _⟩ := radius_search_spec hinv q r hq
    exact ⟨pb', hrun⟩

/-- C8: the entries one search appends to the result buffer are exactly
`matchedBins` over `visitBins`: the clamped box is visited in strictly
increasing row-major order (axis 0 outermost, then axis 1, then axis 2,
each ascending), and within one bin the matched members of the live chain
are taken in chain order, which is strictly decreasing sorted-index order
(the reverse of construction order) — not sorted by coordinate or original
index. -/
theorem claim_C8 {pb : PointBin3D} (hinv : SInv pb) (q : List ℚ) (r : ℚ)
    (hq : q.length = 3) :
    ∃ pb', pb.radius_search q r = .ok pb' ∧
      foundL pb' = foundL pb ++ matchedBins pb q (r * r) (foundL pb) (visitBins pb q r) ∧
      (visitBins pb q r).Pairwise binLex ∧
      ∀ (F : List ℕ) (b : Bin),
        (nearFilter pb.points q (r * r) (liveL pb F b)).Pairwise (fun x y => y < x) := by
  obtain ⟨pb', hrun, _, _, hfound, _⟩ := radius_search_spec hinv q r hq
  exact ⟨pb', hrun, hfound, visitBins_pairwise pb q r,
    fun F b => nearFilter_liveL_pairwise pb q (r * r) F b⟩

/-- C1: for a validly constructed instance and any session of searches with
3-entry queries and non-negative radii since the last reset,
`found_indices()` equals, as a set, the original indices of points within
inclusive Euclidean distance of their corresponding query (each point
counted against the first query that matches it, never again), and it
contains no duplicates. -/
theorem claim_C1 {pts : Mat} {ws : List ℚ} {pb0 : PointBin3D}
    (hrect : ∀ row ∈ pts, row.length = 3)
    (hwpos : ∀ j < 3, 0 < ws.getD j 0)
    (hnew : PointBin3D.new 3 pts ws = .ok pb0)
    (qs : List (List ℚ × ℚ))
    (hqs : ∀ p ∈ qs, p.1.length = 3 ∧ 0 ≤ p.2) :
    ∃ pb', runSearches pb0 qs = .ok pb' ∧
      pb'.found_indices.Nodup ∧
      ∀ k : ℤ, k ∈ pb'.found_indices ↔
        ∃ oi : ℕ, oi < pts.length ∧ k = (oi : ℤ) ∧
          ∃ p ∈ qs, euclidDist (pts.getD oi []) p.1 ≤ (p.2 : ℝ) := by
  obtain ⟨-, hws3, origin, maxbin, hmin, hmax, hpb0⟩ := new_elim hnew
  subst hpb0
  have hinv0 := buildPB_SInv hrect hwpos hmin hmax
  have hf0 : foundL (buildPB pts ws origin maxbin) = [] := rfl
  have hplen0 := buildPB_points_length pts ws origin maxbin
  obtain ⟨pb', hrun, hframe, hinv', hiff⟩ := runSearches_spec qs _ hinv0 hqs
  have hmemL : ∀ s ∈ foundL pb', s < pts.length := by
    intro s hs
    have h := foundL_lt hinv' s hs
    rw [hframe.hp, hplen0] at h
    exact h
  have hgetOI : ∀ s, s < pts.length → pb'.original_indices.getD s 0 =
      (((sortOrder pts ws origin maxbin).getD s 0 : ℕ) : ℤ) := by
    intro s hs
    rw [hframe.hoi]
    exact buildPB_original_indices_getD hs
  have hcnt : pb'.found_count ≤ pb'.found_indices_buffer.length := by
    rw [hinv'.hbuf_len]
    exact hinv'.hcount
  have hfi := found_indices_eq hcnt
  refine ⟨pb', hrun, ?_, ?_⟩
  · rw [hfi]
    refine List.Nodup.map_on ?_ hinv'.hnodup
    intro x hx y hy hexy
    have hx' := hmemL x hx
    have hy' := hmemL y hy
    rw [hgetOI x hx', hgetOI y hy'] at hexy
    have hso : (sortOrder pts ws origin maxbin).getD x 0 =
        (sortOrder pts ws origin maxbin).getD y 0 := by
      exact_mod_cast hexy
    exact nodup_getD_inj (sortOrder_nodup pts ws origin maxbin)
      (by rw [sortOrder_length]; exact hx') (by rw [sortOrder_length]; exact hy') hso
  · intro k
    rw [hfi, List.mem_map]
    constructor
    · rintro ⟨s, hs, rfl⟩
      have hsn : s < pts.length := hmemL s hs
      rcases (hiff s).mp hs with h | ⟨hslt, p, hp, hnear⟩
      · rw [hf0] at h
        cases h
      · refine ⟨(sortOrder pts ws origin maxbin).getD s 0, sortOrder_getD_lt hsn,
          hgetOI s hsn, p, hp, ?_⟩
        rw [euclidDist_le_iff (hqs p hp).2, ← buildPB_points_getD hsn]
        exact hnear
    · rintro ⟨oi, hoi, rfl, p, hp, hdist⟩
      obtain ⟨s, hsn, hso⟩ := sortOrder_surj hoi
      refine ⟨s, ?_, ?_⟩
      · apply (hiff s).mpr
        refine Or.inr ⟨by rw [hplen0]; exact hsn, p, hp, ?_⟩
        rw [buildPB_points_getD hsn, hso]
        exact (euclidDist_le_iff (hqs p hp).2).mp hdist
      · rw [hgetOI s hsn, hso]

/-- C3: `reset` restores the construction-time snapshot: it is idempotent,
and after any reachable state is reset, repeating the exact first search of
the session reproduces the original first search's `found_indices` and
`found_count`. -/
theorem claim_C3 {pts : Mat} {ws : List ℚ} {pb0 pb : PointBin3D}
    (hrect : ∀ row ∈ pts, row.length = 3)
    (hwpos : ∀ j < 3, 0 < ws.getD j 0)
    (hnew : PointBin3D.new 3 pts ws = .ok pb0)
    (hreach : Reach pb0 pb) (q : List ℚ) (r : ℚ) (hq : q.length = 3) :
    pb.reset.reset = pb.reset ∧
    ∀ pb1 pb2 : PointBin3D,
      pb0.radius_search q r = .ok pb1 →
      pb.reset.radius_search q r = .ok pb2 →
      pb2.found_indices = pb1.found_indices ∧ pb2.found_count = pb1.found_count := by
  refine ⟨rfl, ?_⟩
  intro pb1 pb2 h1 h2
  obtain ⟨hinv0, hf0, -⟩ := new_SInv hrect hwpos hnew
  obtain ⟨hinvp, hframep⟩ := Reach_SInv hinv0 hreach
  have hinvR : SInv pb.reset := reset_SInv hinvp
  have hframeR : SameFrame pb0 pb.reset := SameFrame.trans hframep (SameFrame_reset pb)
  have hfR : foundL pb.reset = [] := rfl
  obtain ⟨pb1', hrun1, hframe1, hinv1, hfound1, -⟩ := radius_search_spec hinv0 q r hq
  rw [h1] at hrun1
  have hpe1 : pb1 = pb1' := by injection hrun1
  subst hpe1
  obtain ⟨pb2', hrun2, hframe2, hinv2, hfound2, -⟩ := radius_search_spec hinvR q r hq
  rw [h2] at hrun2
  have hpe2 : pb2 = pb2' := by injection hrun2
  subst hpe2
  have hfeq : foundL pb2 = foundL pb1 := by
    rw [hfound1, hfound2, hf0, hfR, visitBins_eq_of_frame hframeR q r,
      matchedBins_eq_of_frame hframeR q (r * r) _ _]
  have hcnt2 : pb2.found_count ≤ pb2.found_indices_buffer.length := by
    rw [hinv2.hbuf_len]
    exact hinv2.hcount
  have hcnt1 : pb1.found_count ≤ pb1.found_indices_buffer.length := by
    rw [hinv1.hbuf_len]
    exact hinv1.hcount
  constructor
  · rw [found_indices_eq hcnt2, found_indices_eq hcnt1, hfeq]
    have hoi : pb2.original_indices = pb1.original_indices := by
      rw [hframe2.hoi, hframe1.hoi, hframeR.hoi]
    rw [hoi]
  · rw [← foundL_length hcnt2, ← foundL_length hcnt1, hfeq]

/-- C6: for a valid construction, `origin` is the column-wise minimum of
the input points; each point's bin coordinate is
`floor((coord − origin[j]) / bin_widths[j])` per axis; `bin_shape[j]` is
the column-wise maximum bin coordinate plus one, equivalently
`floor((max_j − origin[j]) / bin_widths[j]) + 1`; and every point's bin
lies in `[0, bin_shape[j] − 1]` on each axis. -/
theorem claim_C6 {pts : Mat} {ws : List ℚ} {pb : PointBin3D}
    (hrect : ∀ row ∈ pts, row.length = 3)
    (hwpos : ∀ j < 3, 0 < ws.getD j 0)
    (hnew : PointBin3D.new 3 pts ws = .ok pb) :
    min_along_axis0 pts = some pb.origin ∧
    (∀ j < 3, (∀ row ∈ pts, pb.origin.getD j 0 ≤ row.getD j 0) ∧
      ∃ row ∈ pts, pb.origin.getD j 0 = row.getD j 0) ∧
    (∀ s, s < pb.points.length → binOfS pb s =
      (binCoord ((pb.points.getD s []).getD 0 0) (pb.origin.getD 0 0) (pb.bin_widths.getD 0 0),
       binCoord ((pb.points.getD s []).getD 1 0) (pb.origin.getD 1 0) (pb.bin_widths.getD 1 0),
       binCoord ((pb.points.getD s []).getD 2 0) (pb.origin.getD 2 0)
         (pb.bin_widths.getD 2 0))) ∧
    (∃ maxc, max_along_axis0 pts = some maxc ∧ ∀ j < 3,
      pb.bin_shape.getD j 0 =
        binCoord (maxc.getD j 0) (pb.origin.getD j 0) (pb.bin_widths.getD j 0) + 1) ∧
    (∀ s, s < pb.points.length → binIn (binOfS pb s) (shapeTriple pb)) := by
  obtain ⟨-, hws3, origin, maxbin, hmin, hmax, rfl⟩ := new_elim hnew
  have ho : (buildPB pts ws origin maxbin).origin = origin := rfl
  have hw : (buildPB pts ws origin maxbin).bin_widths = ws := rfl
  have hsh : (buildPB pts ws origin maxbin).bin_shape = maxbin.map (· + 1) := rfl
  have horig := min_along_axis0_spec hrect hmin
  have hBIrect : ∀ r ∈ pts.map (fun row => binRow row origin ws), r.length = 3 := by
    intro r hr
    rcases List.mem_map.mp hr with ⟨row, _, rfl⟩
    exact binRow_length row origin ws
  have hmb := max_along_axis0_i64_spec hBIrect hmax
  refine ⟨ho ▸ hmin, ?_, ?_, ?_, ?_⟩
  · intro j hj
    rw [ho]
    constructor
    · intro row hrow
      rw [horig.2 j hj]
      exact foldl_minf_le_mem (fun r : List ℚ => r.getD j 0) pts _ _ hrow
    · rcases pts with _ | ⟨r0, rs⟩
      · exact absurd hmin (by simp [min_along_axis0])
      · rcases foldl_minf_attained (fun r : List ℚ => r.getD j 0) (r0 :: rs)
            (((r0 :: rs).headD []).getD j 0) with h | ⟨x, hx, hfx⟩
        · exact ⟨r0, List.mem_cons_self r0 rs, by rw [horig.2 j hj, h]; rfl⟩
        · exact ⟨x, hx, by rw [horig.2 j hj, hfx]⟩
  · intro s hs
    rw [show binOfS (buildPB pts ws origin maxbin) s =
      binTriple (binRow ((buildPB pts ws origin maxbin).points.getD s []) origin ws)
      from rfl]
    unfold binTriple
    rw [binRow_getD (by omega), binRow_getD (by omega), binRow_getD (by omega), ho, hw]
  · rcases pts with _ | ⟨r0, rs⟩
    · exact absurd hmin (by simp [min_along_axis0])
    · refine ⟨(r0 :: rs).foldl (fun o r => List.zipWith max o r) r0, rfl, ?_⟩
      intro j hj
      have hspec := max_along_axis0_spec hrect
        (show max_along_axis0 (r0 :: rs) =
          some ((r0 :: rs).foldl (fun o r => List.zipWith max o r) r0) from rfl)
      have hmono : Monotone (fun c => binCoord c (origin.getD j 0) (ws.getD j 0)) :=
        fun a b hab => binCoord_mono (hwpos j hj) hab
      have hfun : (fun (x : ℤ) (y : List ℚ) => max x ((binRow y origin ws).getD j 0)) =
          (fun (v : ℤ) (row : List ℚ) =>
            max v (binCoord (row.getD j 0) (origin.getD j 0) (ws.getD j 0))) := by
        funext v row
        rw [binRow_getD hj]
      have hstart : (((r0 :: rs).map (fun row => binRow row origin ws)).headD []).getD j 0 =
          binCoord (((r0 :: rs).headD []).getD j 0) (origin.getD j 0) (ws.getD j 0) := by
        rw [show ((r0 :: rs).map (fun row => binRow row origin ws)).headD [] =
          binRow r0 origin ws from rfl, binRow_getD hj]
        rfl
      have hkey : maxbin.getD j 0 =
          binCoord ((((r0 :: rs).foldl (fun o r => List.zipWith max o r) r0).getD j 0))
            (origin.getD j 0) (ws.getD j 0) := by
        rw [hmb.2 j hj]
        simp only [List.foldl_map]
        rw [hfun, hstart, hspec.2 j hj]
        exact foldl_maxf_map hmono (fun row : List ℚ => row.getD j 0) (r0 :: rs)
          (((r0 :: rs).headD []).getD j 0)
      rw [hsh, ho, hw, getD_map (· + 1) 0 0 (by rw [hmb.1]; omega), hkey]
  · intro s hs
    exact (buildPB_SInv hrect hwpos hmin hmax).hbin_in s hs

/-- C7: the sorted-to-original index map is a bijection on `[0, n)`, and
the sort by flattened bin key is stable: two points with equal key appear
in the sorted buffer in their original relative order. -/
theorem claim_C7 {pts : Mat} {ws : List ℚ} {pb : PointBin3D}
    (hrect : ∀ row ∈ pts, row.length = 3)
    (hwpos : ∀ j < 3, 0 < ws.getD j 0)
    (hnew : PointBin3D.new 3 pts ws = .ok pb) :
    pb.original_indices.length = pb.points.length ∧
    (pb.original_indices.map Int.toNat).Perm (List.range pb.points.length) ∧
    ∀ s t : ℕ, s < t → t < pb.points.length →
      flatKey (binRow (pb.points.getD s []) pb.origin pb.bin_widths) pb.bin_shape =
        flatKey (binRow (pb.points.getD t []) pb.origin pb.bin_widths) pb.bin_shape →
      pb.original_indices.getD s 0 < pb.original_indices.getD t 0 := by
  obtain ⟨-, hws3, origin, maxbin, hmin, hmax, rfl⟩ := new_elim hnew
  have hOI : (buildPB pts ws origin maxbin).original_indices =
      (sortOrder pts ws origin maxbin).map (fun oi : ℕ => (oi : ℤ)) := rfl
  have hplen := buildPB_points_length pts ws origin maxbin
  refine ⟨?_, ?_, ?_⟩
  · rw [hOI, List.length_map, sortOrder_length, hplen]
  · rw [hOI, List.map_map, hplen]
    have hid : (Int.toNat ∘ fun oi : ℕ => (oi : ℤ)) = fun oi : ℕ => oi := by
      funext x
      simp
    rw [hid, List.map_id']
    exact sortOrder_perm pts ws origin maxbin
  · intro s t hst ht hkey
    rw [hplen] at ht
    have hs := lt_trans hst ht
    rw [buildPB_original_indices_getD hs, buildPB_original_indices_getD ht]
    rw [show (buildPB pts ws origin maxbin).origin = origin from rfl,
      show (buildPB pts ws origin maxbin).bin_widths = ws from rfl,
      show (buildPB pts ws origin maxbin).bin_shape = maxbin.map (· + 1) from rfl,
      buildPB_points_getD hs, buildPB_points_getD ht] at hkey
    have hkey' : flatKey ((pts.map (fun row => binRow row origin ws)).getD
        ((sortOrder pts ws origin maxbin).getD s 0) []) (maxbin.map (· + 1)) =
        flatKey ((pts.map (fun row => binRow row origin ws)).getD
        ((sortOrder pts ws origin maxbin).getD t 0) []) (maxbin.map (· + 1)) := by
      rw [getD_map (fun row => binRow row origin ws) [] [] (sortOrder_getD_lt hs),
        getD_map (fun row => binRow row origin ws) [] [] (sortOrder_getD_lt ht)]
      exact hkey
    have hlt := sortOrder_stable hst ht hkey'
    exact_mod_cast hlt

/-- C1 witness: the statement at a concrete 3-point instance with a
one-query session. -/
theorem claim_C1_witness :
    (∀ row ∈ ([[0, 0, 0], [1, 0, 0], [5, 0, 0]] : Mat), row.length = 3) ∧
    (∀ j < 3, 0 < ([2, 2, 2] : List ℚ).getD j 0) ∧
    PointBin3D.new 3 [[0, 0, 0], [1, 0, 0], [5, 0, 0]] [2, 2, 2] =
      .ok (buildPB [[0, 0, 0], [1, 0, 0], [5, 0, 0]] [2, 2, 2] [0, 0, 0] [2, 0, 0]) ∧
    (∀ p ∈ ([([0, 0, 0], 1)] : List (List ℚ × ℚ)), p.1.length = 3 ∧ 0 ≤ p.2) ∧
    ∃ pb', runSearches
        (buildPB [[0, 0, 0], [1, 0, 0], [5, 0, 0]] [2, 2, 2] [0, 0, 0] [2, 0, 0])
        [([0, 0, 0], 1)] = .ok pb' ∧
      pb'.found_indices.Nodup ∧
      ∀ k : ℤ, k ∈ pb'.found_indices ↔
        ∃ oi : ℕ, oi < ([[0, 0, 0], [1, 0, 0], [5, 0, 0]] : Mat).length ∧ k = (oi : ℤ) ∧
          ∃ p ∈ ([([0, 0, 0], 1)] : List (List ℚ × ℚ)),
            euclidDist (([[0, 0, 0], [1, 0, 0], [5, 0, 0]] : Mat).getD oi []) p.1 ≤
              (p.2 : ℝ) :=
  ⟨by decide, by with_unfolding_all decide, by with_unfolding_all rfl,
   by with_unfolding_all decide,
   @claim_C1 [[0, 0, 0], [1, 0, 0], [5, 0, 0]] [2, 2, 2] (buildPB [[0, 0, 0], [1, 0, 0], [5, 0, 0]] [2, 2, 2] [0, 0, 0] [2, 0, 0])
     (by decide) (by with_unfolding_all decide) (by with_unfolding_all rfl)
     [([0, 0, 0], 1)] (by with_unfolding_all decide)⟩

/-- C2 witness: the statement at a concrete 3-point instance, at the
initial reachable state. -/
theorem claim_C2_witness :
    (∀ row ∈ ([[0, 0, 0], [1, 0, 0], [5, 0, 0]] : Mat), row.length = 3) ∧
    (∀ j < 3, 0 < ([2, 2, 2] : List ℚ).getD j 0) ∧
    PointBin3D.new 3 [[0, 0, 0], [1, 0, 0], [5, 0, 0]] [2, 2, 2] =
      .ok (buildPB [[0, 0, 0], [1, 0, 0], [5, 0, 0]] [2, 2, 2] [0, 0, 0] [2, 0, 0]) ∧
    Reach (buildPB [[0, 0, 0], [1, 0, 0], [5, 0, 0]] [2, 2, 2] [0, 0, 0] [2, 0, 0])
      (buildPB [[0, 0, 0], [1, 0, 0], [5, 0, 0]] [2, 2, 2] [0, 0, 0] [2, 0, 0]) ∧
    ((buildPB [[0, 0, 0], [1, 0, 0], [5, 0, 0]] [2, 2, 2] [0, 0, 0]
        [2, 0, 0]).found_indices.length =
      (buildPB [[0, 0, 0], [1, 0, 0], [5, 0, 0]] [2, 2, 2] [0, 0, 0] [2, 0, 0]).found_count ∧
    (buildPB [[0, 0, 0], [1, 0, 0], [5, 0, 0]] [2, 2, 2] [0, 0, 0] [2, 0, 0]).found_count ≤
      ([[0, 0, 0], [1, 0, 0], [5, 0, 0]] : Mat).length ∧
    (∀ (q : List ℚ) (r : ℚ) (pb' : PointBin3D),
      (buildPB [[0, 0, 0], [1, 0, 0], [5, 0, 0]] [2, 2, 2] [0, 0, 0]
        [2, 0, 0]).radius_search q r = .ok pb' →
      (buildPB [[0, 0, 0], [1, 0, 0], [5, 0, 0]] [2, 2, 2] [0, 0, 0]
        [2, 0, 0]).found_count ≤ pb'.found_count) ∧
    (buildPB [[0, 0, 0], [1, 0, 0], [5, 0, 0]] [2, 2, 2] [0, 0, 0]
      [2, 0, 0]).reset.found_count = 0) :=
  ⟨by decide, by with_unfolding_all decide, by with_unfolding_all rfl, Reach.refl,
   @claim_C2 [[0, 0, 0], [1, 0, 0], [5, 0, 0]] [2, 2, 2] (buildPB [[0, 0, 0], [1, 0, 0], [5, 0, 0]] [2, 2, 2] [0, 0, 0] [2, 0, 0]) (buildPB [[0, 0, 0], [1, 0, 0], [5, 0, 0]] [2, 2, 2] [0, 0, 0] [2, 0, 0])
     (by decide) (by with_unfolding_all decide) (by with_unfolding_all rfl) Reach.refl⟩

/-- C3 witness: idempotence and restoration at a concrete instance, taking
the current state to be the freshly constructed one. -/
theorem claim_C3_witness :
    (∀ row ∈ ([[0, 0, 0], [1, 0, 0], [5, 0, 0]] : Mat), row.length = 3) ∧
    (∀ j < 3, 0 < ([2, 2, 2] : List ℚ).getD j 0) ∧
    PointBin3D.new 3 [[0, 0, 0], [1, 0, 0], [5, 0, 0]] [2, 2, 2] =
      .ok (buildPB [[0, 0, 0], [1, 0, 0], [5, 0, 0]] [2, 2, 2] [0, 0, 0] [2, 0, 0]) ∧
    Reach (buildPB [[0, 0, 0], [1, 0, 0], [5, 0, 0]] [2, 2, 2] [0, 0, 0] [2, 0, 0])
      (buildPB [[0, 0, 0], [1, 0, 0], [5, 0, 0]] [2, 2, 2] [0, 0, 0] [2, 0, 0]) ∧
    ([0, 0, 0] : List ℚ).length = 3 ∧
    ((buildPB [[0, 0, 0], [1, 0, 0], [5, 0, 0]] [2, 2, 2] [0, 0, 0] [2, 0, 0]).reset.reset =
      (buildPB [[0, 0, 0], [1, 0, 0], [5, 0, 0]] [2, 2, 2] [0, 0, 0] [2, 0, 0]).reset ∧
    ∀ pb1 pb2 : PointBin3D,
      (buildPB [[0, 0, 0], [1, 0, 0], [5, 0, 0]] [2, 2, 2] [0, 0, 0]
        [2, 0, 0]).radius_search [0, 0, 0] 1 = .ok pb1 →
      (buildPB [[0, 0, 0], [1, 0, 0], [5, 0, 0]] [2, 2, 2] [0, 0, 0]
        [2, 0, 0]).reset.radius_search [0, 0, 0] 1 = .ok pb2 →
      pb2.found_indices = pb1.found_indices ∧ pb2.found_count = pb1.found_count) :=
  ⟨by decide, by with_unfolding_all decide, by with_unfolding_all rfl, Reach.refl, rfl,
   @claim_C3 [[0, 0, 0], [1, 0, 0], [5, 0, 0]] [2, 2, 2] (buildPB [[0, 0, 0], [1, 0, 0], [5, 0, 0]] [2, 2, 2] [0, 0, 0] [2, 0, 0]) (buildPB [[0, 0, 0], [1, 0, 0], [5, 0, 0]] [2, 2, 2] [0, 0, 0] [2, 0, 0])
     (by decide) (by with_unfolding_all decide) (by with_unfolding_all rfl)
     Reach.refl [0, 0, 0] 1 rfl⟩

/-- C4 witness: the frame statement at a concrete instance, at the initial
reachable state. -/
theorem claim_C4_witness :
    (∀ row ∈ ([[0, 0, 0], [1, 0, 0], [5, 0, 0]] : Mat), row.length = 3) ∧
    (∀ j < 3, 0 < ([2, 2, 2] : List ℚ).getD j 0) ∧
    PointBin3D.new 3 [[0, 0, 0], [1, 0, 0], [5, 0, 0]] [2, 2, 2] =
      .ok (buildPB [[0, 0, 0], [1, 0, 0], [5, 0, 0]] [2, 2, 2] [0, 0, 0] [2, 0, 0]) ∧
    Reach (buildPB [[0, 0, 0], [1, 0, 0], [5, 0, 0]] [2, 2, 2] [0, 0, 0] [2, 0, 0])
      (buildPB [[0, 0, 0], [1, 0, 0], [5, 0, 0]] [2, 2, 2] [0, 0, 0] [2, 0, 0]) ∧
    (SameFrame (buildPB [[0, 0, 0], [1, 0, 0], [5, 0, 0]] [2, 2, 2] [0, 0, 0] [2, 0, 0])
      (buildPB [[0, 0, 0], [1, 0, 0], [5, 0, 0]] [2, 2, 2] [0, 0, 0] [2, 0, 0]) ∧
    (buildPB [[0, 0, 0], [1, 0, 0], [5, 0, 0]] [2, 2, 2] [0, 0, 0]
        [2, 0, 0]).reset.original_points =
      (buildPB [[0, 0, 0], [1, 0, 0], [5, 0, 0]] [2, 2, 2] [0, 0, 0]
        [2, 0, 0]).original_points ∧
    (buildPB [[0, 0, 0], [1, 0, 0], [5, 0, 0]] [2, 2, 2] [0, 0, 0] [2, 0, 0]).reset.points =
      (buildPB [[0, 0, 0], [1, 0, 0], [5, 0, 0]] [2, 2, 2] [0, 0, 0] [2, 0, 0]).points ∧
    (buildPB [[0, 0, 0], [1, 0, 0], [5, 0, 0]] [2, 2, 2] [0, 0, 0]
        [2, 0, 0]).reset.bin_widths =
      (buildPB [[0, 0, 0], [1, 0, 0], [5, 0, 0]] [2, 2, 2] [0, 0, 0] [2, 0, 0]).bin_widths ∧
    (buildPB [[0, 0, 0], [1, 0, 0], [5, 0, 0]] [2, 2, 2] [0, 0, 0] [2, 0, 0]).reset.origin =
      (buildPB [[0, 0, 0], [1, 0, 0], [5, 0, 0]] [2, 2, 2] [0, 0, 0] [2, 0, 0]).origin ∧
    (buildPB [[0, 0, 0], [1, 0, 0], [5, 0, 0]] [2, 2, 2] [0, 0, 0]
        [2, 0, 0]).reset.original_indices =
      (buildPB [[0, 0, 0], [1, 0, 0], [5, 0, 0]] [2, 2, 2] [0, 0, 0]
        [2, 0, 0]).original_indices ∧
    (buildPB [[0, 0, 0], [1, 0, 0], [5, 0, 0]] [2, 2, 2] [0, 0, 0]
        [2, 0, 0]).reset.bin_shape =
      (buildPB [[0, 0, 0], [1, 0, 0], [5, 0, 0]] [2, 2, 2] [0, 0, 0] [2, 0, 0]).bin_shape ∧
    (buildPB [[0, 0, 0], [1, 0, 0], [5, 0, 0]] [2, 2, 2] [0, 0, 0]
        [2, 0, 0]).reset.original_first_member =
      (buildPB [[0, 0, 0], [1, 0, 0], [5, 0, 0]] [2, 2, 2] [0, 0, 0]
        [2, 0, 0]).original_first_member ∧
    (buildPB [[0, 0, 0], [1, 0, 0], [5, 0, 0]] [2, 2, 2] [0, 0, 0]
        [2, 0, 0]).reset.original_next_member =
      (buildPB [[0, 0, 0], [1, 0, 0], [5, 0, 0]] [2, 2, 2] [0, 0, 0]
        [2, 0, 0]).original_next_member ∧
    (buildPB [[0, 0, 0], [1, 0, 0], [5, 0, 0]] [2, 2, 2] [0, 0, 0]
        [2, 0, 0]).reset.found_indices_buffer =
      (buildPB [[0, 0, 0], [1, 0, 0], [5, 0, 0]] [2, 2, 2] [0, 0, 0]
        [2, 0, 0]).found_indices_buffer ∧
    (buildPB [[0, 0, 0], [1, 0, 0], [5, 0, 0]] [2, 2, 2] [0, 0, 0]
        [2, 0, 0]).reset.first_member =
      (buildPB [[0, 0, 0], [1, 0, 0], [5, 0, 0]] [2, 2, 2] [0, 0, 0]
        [2, 0, 0]).original_first_member ∧
    (buildPB [[0, 0, 0], [1, 0, 0], [5, 0, 0]] [2, 2, 2] [0, 0, 0]
        [2, 0, 0]).reset.next_member =
      (buildPB [[0, 0, 0], [1, 0, 0], [5, 0, 0]] [2, 2, 2] [0, 0, 0]
        [2, 0, 0]).original_next_member ∧
    (buildPB [[0, 0, 0], [1, 0, 0], [5, 0, 0]] [2, 2, 2] [0, 0, 0]
      [2, 0, 0]).reset.found_count = 0) :=
  ⟨by decide, by with_unfolding_all decide, by with_unfolding_all rfl, Reach.refl,
   @claim_C4 [[0, 0, 0], [1, 0, 0], [5, 0, 0]] [2, 2, 2] (buildPB [[0, 0, 0], [1, 0, 0], [5, 0, 0]] [2, 2, 2] [0, 0, 0] [2, 0, 0]) (buildPB [[0, 0, 0], [1, 0, 0], [5, 0, 0]] [2, 2, 2] [0, 0, 0] [2, 0, 0])
     (by decide) (by with_unfolding_all decide) (by with_unfolding_all rfl) Reach.refl⟩

/-- C6 witness: the grid-construction statement at a concrete instance. -/
theorem claim_C6_witness :
    (∀ row ∈ ([[0, 0, 0], [1, 0, 0], [5, 0, 0]] : Mat), row.length = 3) ∧
    (∀ j < 3, 0 < ([2, 2, 2] : List ℚ).getD j 0) ∧
    PointBin3D.new 3 [[0, 0, 0], [1, 0, 0], [5, 0, 0]] [2, 2, 2] =
      .ok (buildPB [[0, 0, 0], [1, 0, 0], [5, 0, 0]] [2, 2, 2] [0, 0, 0] [2, 0, 0]) ∧
    (min_along_axis0 [[0, 0, 0], [1, 0, 0], [5, 0, 0]] =
      some (buildPB [[0, 0, 0], [1, 0, 0], [5, 0, 0]] [2, 2, 2] [0, 0, 0] [2, 0, 0]).origin ∧
    (∀ j < 3, (∀ row ∈ ([[0, 0, 0], [1, 0, 0], [5, 0, 0]] : Mat),
        (buildPB [[0, 0, 0], [1, 0, 0], [5, 0, 0]] [2, 2, 2] [0, 0, 0]
          [2, 0, 0]).origin.getD j 0 ≤ row.getD j 0) ∧
      ∃ row ∈ ([[0, 0, 0], [1, 0, 0], [5, 0, 0]] : Mat),
        (buildPB [[0, 0, 0], [1, 0, 0], [5, 0, 0]] [2, 2, 2] [0, 0, 0]
          [2, 0, 0]).origin.getD j 0 = row.getD j 0) ∧
    (∀ s, s < (buildPB [[0, 0, 0], [1, 0, 0], [5, 0, 0]] [2, 2, 2] [0, 0, 0]
        [2, 0, 0]).points.length →
      binOfS (buildPB [[0, 0, 0], [1, 0, 0], [5, 0, 0]] [2, 2, 2] [0, 0, 0] [2, 0, 0]) s =
      (binCoord (((buildPB [[0, 0, 0], [1, 0, 0], [5, 0, 0]] [2, 2, 2] [0, 0, 0]
            [2, 0, 0]).points.getD s []).getD 0 0)
          ((buildPB [[0, 0, 0], [1, 0, 0], [5, 0, 0]] [2, 2, 2] [0, 0, 0]
            [2, 0, 0]).origin.getD 0 0)
          ((buildPB [[0, 0, 0], [1, 0, 0], [5, 0, 0]] [2, 2, 2] [0, 0, 0]
            [2, 0, 0]).bin_widths.getD 0 0),
       binCoord (((buildPB [[0, 0, 0], [1, 0, 0], [5, 0, 0]] [2, 2, 2] [0, 0, 0]
            [2, 0, 0]).points.getD s []).getD 1 0)
          ((buildPB [[0, 0, 0], [1, 0, 0], [5, 0, 0]] [2, 2, 2] [0, 0, 0]
            [2, 0, 0]).origin.getD 1 0)
          ((buildPB [[0, 0, 0], [1, 0, 0], [5, 0, 0]] [2, 2, 2] [0, 0, 0]
            [2, 0, 0]).bin_widths.getD 1 0),
       binCoord (((buildPB [[0, 0, 0], [1, 0, 0], [5, 0, 0]] [2, 2, 2] [0, 0, 0]
            [2, 0, 0]).points.getD s []).getD 2 0)
          ((buildPB [[0, 0, 0], [1, 0, 0], [5, 0, 0]] [2, 2, 2] [0, 0, 0]
            [2, 0, 0]).origin.getD 2 0)
          ((buildPB [[0, 0, 0], [1, 0, 0], [5, 0, 0]] [2, 2, 2] [0, 0, 0]
            [2, 0, 0]).bin_widths.getD 2 0))) ∧
    (∃ maxc, max_along_axis0 [[0, 0, 0], [1, 0, 0], [5, 0, 0]] = some maxc ∧ ∀ j < 3,
      (buildPB [[0, 0, 0], [1, 0, 0], [5, 0, 0]] [2, 2, 2] [0, 0, 0]
          [2, 0, 0]).bin_shape.getD j 0 =
        binCoord (maxc.getD j 0)
          ((buildPB [[0, 0, 0], [1, 0, 0], [5, 0, 0]] [2, 2, 2] [0, 0, 0]
            [2, 0, 0]).origin.getD j 0)
          ((buildPB [[0, 0, 0], [1, 0, 0], [5, 0, 0]] [2, 2, 2] [0, 0, 0]
            [2, 0, 0]).bin_widths.getD j 0) + 1) ∧
    (∀ s, s < (buildPB [[0, 0, 0], [1, 0, 0], [5, 0, 0]] [2, 2, 2] [0, 0, 0]
        [2, 0, 0]).points.length →
      binIn (binOfS (buildPB [[0, 0, 0], [1, 0, 0], [5, 0, 0]] [2, 2, 2] [0, 0, 0]
          [2, 0, 0]) s)
        (shapeTriple (buildPB [[0, 0, 0], [1, 0, 0], [5, 0, 0]] [2, 2, 2] [0, 0, 0]
          [2, 0, 0])))) :=
  ⟨by decide, by with_unfolding_all decide, by with_unfolding_all rfl,
   @claim_C6 [[0, 0, 0], [1, 0, 0], [5, 0, 0]] [2, 2, 2] (buildPB [[0, 0, 0], [1, 0, 0], [5, 0, 0]] [2, 2, 2] [0, 0, 0] [2, 0, 0])
     (by decide) (by with_unfolding_all decide) (by with_unfolding_all rfl)⟩

/-- C7 witness: the bijection and stability statement at a concrete
instance. -/
theorem claim_C7_witness :
    (∀ row ∈ ([[0, 0, 0], [1, 0, 0], [5, 0, 0]] : Mat), row.length = 3) ∧
    (∀ j < 3, 0 < ([2, 2, 2] : List ℚ).getD j 0) ∧
    PointBin3D.new 3 [[0, 0, 0], [1, 0, 0], [5, 0, 0]] [2, 2, 2] =
      .ok (buildPB [[0, 0, 0], [1, 0, 0], [5, 0, 0]] [2, 2, 2] [0, 0, 0] [2, 0, 0]) ∧
    ((buildPB [[0, 0, 0], [1, 0, 0], [5, 0, 0]] [2, 2, 2] [0, 0, 0]
        [2, 0, 0]).original_indices.length =
      (buildPB [[0, 0, 0], [1, 0, 0], [5, 0, 0]] [2, 2, 2] [0, 0, 0]
        [2, 0, 0]).points.length ∧
    ((buildPB [[0, 0, 0], [1, 0, 0], [5, 0, 0]] [2, 2, 2] [0, 0, 0]
        [2, 0, 0]).original_indices.map Int.toNat).Perm
      (List.range (buildPB [[0, 0, 0], [1, 0, 0], [5, 0, 0]] [2, 2, 2] [0, 0, 0]
        [2, 0, 0]).points.length) ∧
    ∀ s t : ℕ, s < t →
      t < (buildPB [[0, 0, 0], [1, 0, 0], [5, 0, 0]] [2, 2, 2] [0, 0, 0]
        [2, 0, 0]).points.length →
      flatKey (binRow ((buildPB [[0, 0, 0], [1, 0, 0], [5, 0, 0]] [2, 2, 2] [0, 0, 0]
            [2, 0, 0]).points.getD s [])
          (buildPB [[0, 0, 0], [1, 0, 0], [5, 0, 0]] [2, 2, 2] [0, 0, 0] [2, 0, 0]).origin
          (buildPB [[0, 0, 0], [1, 0, 0], [5, 0, 0]] [2, 2, 2] [0, 0, 0]
            [2, 0, 0]).bin_widths)
        (buildPB [[0, 0, 0], [1, 0, 0], [5, 0, 0]] [2, 2, 2] [0, 0, 0] [2, 0, 0]).bin_shape =
      flatKey (binRow ((buildPB [[0, 0, 0], [1, 0, 0], [5, 0, 0]] [2, 2, 2] [0, 0, 0]
            [2, 0, 0]).points.getD t [])
          (buildPB [[0, 0, 0], [1, 0, 0], [5, 0, 0]] [2, 2, 2] [0, 0, 0] [2, 0, 0]).origin
          (buildPB [[0, 0, 0], [1, 0, 0], [5, 0, 0]] [2, 2, 2] [0, 0, 0]
            [2, 0, 0]).bin_widths)
        (buildPB [[0, 0, 0], [1, 0, 0], [5, 0, 0]] [2, 2, 2] [0, 0, 0] [2, 0, 0]).bin_shape →
      (buildPB [[0, 0, 0], [1, 0, 0], [5, 0, 0]] [2, 2, 2] [0, 0, 0]
          [2, 0, 0]).original_indices.getD s 0 <
        (buildPB [[0, 0, 0], [1, 0, 0], [5, 0, 0]] [2, 2, 2] [0, 0, 0]
          [2, 0, 0]).original_indices.getD t 0) :=
  ⟨by decide, by with_unfolding_all decide, by with_unfolding_all rfl,
   @claim_C7 [[0, 0, 0], [1, 0, 0], [5, 0, 0]] [2, 2, 2] (buildPB [[0, 0, 0], [1, 0, 0], [5, 0, 0]] [2, 2, 2] [0, 0, 0] [2, 0, 0])
     (by decide) (by with_unfolding_all decide) (by with_unfolding_all rfl)⟩

/-- C8 witness: the ordering statement at a concrete instance and query. -/
theorem claim_C8_witness :
    SInv (buildPB [[0, 0, 0], [1, 0, 0], [5, 0, 0]] [2, 2, 2] [0, 0, 0] [2, 0, 0]) ∧
    ([0, 0, 0] : List ℚ).length = 3 ∧
    ∃ pb', (buildPB [[0, 0, 0], [1, 0, 0], [5, 0, 0]] [2, 2, 2] [0, 0, 0]
        [2, 0, 0]).radius_search [0, 0, 0] 1 = .ok pb' ∧
      foundL pb' =
        foundL (buildPB [[0, 0, 0], [1, 0, 0], [5, 0, 0]] [2, 2, 2] [0, 0, 0] [2, 0, 0]) ++
        matchedBins (buildPB [[0, 0, 0], [1, 0, 0], [5, 0, 0]] [2, 2, 2] [0, 0, 0] [2, 0, 0])
          [0, 0, 0] (1 * 1)
          (foundL (buildPB [[0, 0, 0], [1, 0, 0], [5, 0, 0]] [2, 2, 2] [0, 0, 0] [2, 0, 0]))
          (visitBins (buildPB [[0, 0, 0], [1, 0, 0], [5, 0, 0]] [2, 2, 2] [0, 0, 0]
            [2, 0, 0]) [0, 0, 0] 1) ∧
      (visitBins (buildPB [[0, 0, 0], [1, 0, 0], [5, 0, 0]] [2, 2, 2] [0, 0, 0] [2, 0, 0])
        [0, 0, 0] 1).Pairwise binLex ∧
      ∀ (F : List ℕ) (b : Bin),
        (nearFilter (buildPB [[0, 0, 0], [1, 0, 0], [5, 0, 0]] [2, 2, 2] [0, 0, 0]
            [2, 0, 0]).points [0, 0, 0] (1 * 1)
          (liveL (buildPB [[0, 0, 0], [1, 0, 0], [5, 0, 0]] [2, 2, 2] [0, 0, 0] [2, 0, 0])
            F b)).Pairwise (fun x y => y < x) :=
  ⟨buildPB_SInv (by decide) (by with_unfolding_all decide) (by with_unfolding_all decide)
     (by with_unfolding_all decide), rfl,
   @claim_C8 (buildPB [[0, 0, 0], [1, 0, 0], [5, 0, 0]] [2, 2, 2] [0, 0, 0] [2, 0, 0])
     (buildPB_SInv (by decide) (by with_unfolding_all decide)
       (by with_unfolding_all decide) (by with_unfolding_all decide)) [0, 0, 0] 1 rfl⟩

/-- C10 witness: the next-pointer and termination statement at a concrete
instance, at the initial reachable state. -/
theorem claim_C10_witness :
    (∀ row ∈ ([[0, 0, 0], [1, 0, 0], [5, 0, 0]] : Mat), row.length = 3) ∧
    (∀ j < 3, 0 < ([2, 2, 2] : List ℚ).getD j 0) ∧
    PointBin3D.new 3 [[0, 0, 0], [1, 0, 0], [5, 0, 0]] [2, 2, 2] =
      .ok (buildPB [[0, 0, 0], [1, 0, 0], [5, 0, 0]] [2, 2, 2] [0, 0, 0] [2, 0, 0]) ∧
    Reach (buildPB [[0, 0, 0], [1, 0, 0], [5, 0, 0]] [2, 2, 2] [0, 0, 0] [2, 0, 0])
      (buildPB [[0, 0, 0], [1, 0, 0], [5, 0, 0]] [2, 2, 2] [0, 0, 0] [2, 0, 0]) ∧
    ((∀ i : ℕ, i < (buildPB [[0, 0, 0], [1, 0, 0], [5, 0, 0]] [2, 2, 2] [0, 0, 0]
        [2, 0, 0]).points.length →
      (buildPB [[0, 0, 0], [1, 0, 0], [5, 0, 0]] [2, 2, 2] [0, 0, 0]
          [2, 0, 0]).next_member.getD i 0 = -1 ∨
      (buildPB [[0, 0, 0], [1, 0, 0], [5, 0, 0]] [2, 2, 2] [0, 0, 0]
          [2, 0, 0]).next_member.getD i 0 = -2 ∨
      (0 ≤ (buildPB [[0, 0, 0], [1, 0, 0], [5, 0, 0]] [2, 2, 2] [0, 0, 0]
          [2, 0, 0]).next_member.getD i 0 ∧
        (buildPB [[0, 0, 0], [1, 0, 0], [5, 0, 0]] [2, 2, 2] [0, 0, 0]
          [2, 0, 0]).next_member.getD i 0 < (i : ℤ))) ∧
    (∀ b : Bin, binIn b (shapeTriple (buildPB [[0, 0, 0], [1, 0, 0], [5, 0, 0]] [2, 2, 2]
        [0, 0, 0] [2, 0, 0])) → ∃ L : List ℕ,
      Links (buildPB [[0, 0, 0], [1, 0, 0], [5, 0, 0]] [2, 2, 2] [0, 0, 0]
          [2, 0, 0]).next_member
        (fmGet (buildPB [[0, 0, 0], [1, 0, 0], [5, 0, 0]] [2, 2, 2] [0, 0, 0]
          [2, 0, 0]).first_member b) L (-1) ∧ L.Nodup ∧
        L.length ≤ (buildPB [[0, 0, 0], [1, 0, 0], [5, 0, 0]] [2, 2, 2] [0, 0, 0]
          [2, 0, 0]).points.length) ∧
    (∀ (q : List ℚ) (r : ℚ), q.length = 3 →
      ∃ pb', (buildPB [[0, 0, 0], [1, 0, 0], [5, 0, 0]] [2, 2, 2] [0, 0, 0]
        [2, 0, 0]).radius_search q r = .ok pb')) :=
  ⟨by decide, by with_unfolding_all decide, by with_unfolding_all rfl, Reach.refl,
   @claim_C10 [[0, 0, 0], [1, 0, 0], [5, 0, 0]] [2, 2, 2] (buildPB [[0, 0, 0], [1, 0, 0], [5, 0, 0]] [2, 2, 2] [0, 0, 0] [2, 0, 0]) (buildPB [[0, 0, 0], [1, 0, 0], [5, 0, 0]] [2, 2, 2] [0, 0, 0] [2, 0, 0])
     (by decide) (by with_unfolding_all decide) (by with_unfolding_all rfl) Reach.refl⟩

end BucketSearch
